import Mathlib

/-!
# tmenu: a shallow embedding of `tmenu.c`

The development models the session state of `tmenu.c` (the global variables),
the match engine (`match`, `match_words`, `match_regex`, `match_eregex`) and the
keystroke dispatcher (`read_input`), and proves properties of them.

Conventions of the embedding.

* A byte (`char`, or the `int` returned by `getc`) is a `Nat`.
* A C string that is only read (an item, a token) is the list of its bytes
  before the terminating NUL.
* A block obtained from `malloc` is a list of cells; a cell is `none` while its
  byte is indeterminate (never written) and `some b` afterwards.
* `size_t` is 64 bits wide and `int` is 32 bits wide (LP64); an out-of-range
  conversion to `int` wraps.  Arithmetic that can leave the range is written
  with an explicit modulus.
* A function whose C original can read an indeterminate byte, run past a block
  or dereference a null pointer returns `none` (respectively
  `Outcome.undefined`) there: the program text does not determine the result.
* Terminal rendering (`draw`, `draw_prompt`) writes to `stderr` only and does
  not change the session state; the state transitions below leave it out.
-/

namespace Tmenu

/-! ## Machine integers -/

/-- Number of values of `size_t`. -/
def SIZE_MOD : Nat := 2 ^ 64

/-- Subtraction `a - b` of two `size_t` values: the result wraps below zero. -/
def size_sub (a b : Nat) : Nat := if b ≤ a then a - b else a + SIZE_MOD - b

/-- Conversion of a `size_t` value to `int` (32 bits, two's complement, wrapping). -/
def int_of_size (x : Nat) : Int := ((x + 2 ^ 31) % 2 ^ 32 : Nat) - (2 ^ 31 : Int)

/-- Conversion of an `int` to `size_t`, as done by the usual arithmetic
conversions when an `int` is compared with a `size_t`. -/
def size_of_int (z : Int) : Nat := (z % (SIZE_MOD : Int)).toNat

/-! ## Strings and memory blocks -/

/-- A cell of a heap block: `none` is an indeterminate byte. -/
abbrev Cell := Option Nat

/-- Bytes of a string literal. -/
def cstr (s : String) : List Nat := s.toList.map Char.toNat

/-- The block holding the NUL-terminated copy of `t` (as made by `strdup`). -/
def cbuf (t : List Nat) : List Cell := t.map some ++ [some 0]

/-- Read the C string that starts at the beginning of a block: the bytes before
the first NUL.  Undefined when an indeterminate cell or the end of the block
comes first. -/
def c_str : List Cell → Option (List Nat)
  | [] => none
  | none :: _ => none
  | some c :: r => if c = 0 then some [] else (c_str r).map (fun t => c :: t)

/-- The bytes `strncpy(dst, src, n)` stores: the string at `src` cut or
NUL-padded to exactly `n` bytes. -/
def strncpy_bytes : List Cell → Nat → Option (List Nat)
  | _, 0 => some []
  | [], _ + 1 => none
  | none :: _, _ + 1 => none
  | some c :: r, n + 1 =>
    if c = 0 then some (List.replicate (n + 1) 0)
    else (strncpy_bytes r n).map (fun t => c :: t)

/-- Store `bytes` in a block from offset `off`; undefined past the block's end. -/
def write_at (b : List Cell) (off : Nat) (bytes : List Nat) : Option (List Cell) :=
  if off + bytes.length ≤ b.length then
    some (b.take off ++ bytes.map some ++ b.drop (off + bytes.length))
  else none

/-- Model of `strncpy(dst, src, n)`. -/
def strncpy (dst src : List Cell) (n : Nat) : Option (List Cell) :=
  (strncpy_bytes src n).bind (write_at dst 0)

/-- Model of `strcpy(dst + doff, src + soff)`. -/
def strcpy (dst : List Cell) (doff : Nat) (src : List Cell) (soff : Nat) : Option (List Cell) :=
  if soff ≤ src.length then
    (c_str (src.drop soff)).bind (fun t => write_at dst doff (t ++ [0]))
  else none

/-- Model of `tolower` in the "C" locale. -/
def tolower (c : Nat) : Nat := if 65 ≤ c ∧ c ≤ 90 then c + 32 else c

/-- Byte comparison of `strstr` (`fold = false`) and `strcasestr` (`fold = true`). -/
def char_eq (fold : Bool) (a b : Nat) : Bool :=
  if fold then tolower a == tolower b else a == b

/-- Does `needle` occur at the very beginning of `hay`? -/
def starts_with (fold : Bool) : List Nat → List Nat → Bool
  | _, [] => true
  | [], _ :: _ => false
  | h :: hs, n :: ns => char_eq fold h n && starts_with fold hs ns

/-- Model of `strstr(hay, needle)` (`fold = false`) and `strcasestr(hay, needle)`
(`fold = true`): the offset of the leftmost occurrence, `none` for a null result. -/
def strstr (fold : Bool) : List Nat → List Nat → Option Nat
  | [], needle => if starts_with fold [] needle then some 0 else none
  | h :: hs, needle =>
    if starts_with fold (h :: hs) needle then some 0
    else (strstr fold hs needle).map (fun p => p + 1)

/-! ## The match engine -/

/-- Model of one call of `strtok` with the delimiter set holding the single
byte `delim`, on the not yet consumed rest `s` of the text: leading delimiters
are skipped; at the end of the text the result is null; otherwise the token runs
up to the next delimiter, which is consumed. -/
def strtok (delim : Nat) (s : List Nat) : Option (List Nat × List Nat) :=
  match s.dropWhile (fun c => c == delim) with
  | [] => none
  | c :: r =>
    some ((c :: r).takeWhile (fun x => x != delim),
          ((c :: r).dropWhile (fun x => x != delim)).drop 1)

/-- The `strtok` loop of `match_words`: the words stored in `words[0..num_words)`.
A returned token is kept when its first byte is not NUL.  The first argument
bounds the number of `strtok` calls. -/
def split_words : Nat → List Nat → List (List Nat)
  | 0, _ => []
  | fuel + 1, s =>
    match strtok 32 s with
    | none => []
    | some (w, r) => if w ≠ [] then w :: split_words fuel r else split_words fuel r

/-- The words of a query text, as computed by `match_words`. -/
def query_words (text : List Nat) : List (List Nat) := split_words (text.length + 1) text

/-- The inner loop of `match_words` over the words, with `end` pointing at
`e`: `true` iff `begin` is non-null when the loop is left. -/
def scan_words (fold : Bool) : List Nat → List (List Nat) → Bool
  | _, [] => true
  | e, w :: ws =>
    match strstr fold e w with
    | none => false
    | some p => scan_words fold (e.drop (p + w.length)) ws

/-- Store `v` in slot `k` of an array whose slots `0..k` exist or directly
follow the existing ones. -/
def store {α : Type} (a : List α) (k : Nat) (v : α) : List α := a.take k ++ v :: a.drop (k + 1)

/-- The loop `for (i = ...; i < num_items; i++) if (test(items[i])) matches[(*num_matches)++] = i;`
run for `fuel` more iterations from index `i`. -/
def scan_items (test : List Nat → Bool) (items : List (List Nat)) :
    Nat → Nat → List Nat → Nat → Option (List Nat × Nat)
  | 0, _, m, k => some (m, k)
  | fuel + 1, i, m, k =>
    match items[i]? with
    | none => none
    | some it =>
      if test it then scan_items test items fuel (i + 1) (store m k i) (k + 1)
      else scan_items test items fuel (i + 1) m k

/-- The loop `for (i = ...; i < num_items; i++) matches[i] = i;`. -/
def fill_all : Nat → Nat → List Nat → List Nat
  | 0, _, m => m
  | fuel + 1, i, m => fill_all fuel (i + 1) (store m i i)

/-- An entry of the undo history (`struct input` without its link). -/
structure input where
  text : List Cell
  length : Nat
deriving DecidableEq, Repr

/-- Result of a match algorithm: the returned `int`, the `matches` array and
`*num_matches`. -/
abbrev MatchResult := Nat × List Nat × Nat

/-- Model of `match_words`; `fold` is the global `case_fold`. -/
def match_words (fold : Bool) (inp : input) (items : List (List Nat)) (num_items : Nat)
    (matches_ : List Nat) (_num_matches : Nat) : Option MatchResult :=
  match c_str inp.text with
  | none => none
  | some text =>
    let words := query_words text
    if words.length = 0 then
      some (0, fill_all num_items 0 matches_, num_items)
    else
      match scan_items (fun it => scan_words fold it words) items num_items 0 matches_ 0 with
      | none => none
      | some (m, k) => some (0, m, k)

/-- A match algorithm, the target of the function pointer `algorithm`.  The
first argument is the global `case_fold`, which the algorithms read. -/
abbrev Algorithm :=
  Bool → input → List (List Nat) → Nat → List Nat → Nat → Option MatchResult

/-- The regular-expression library (`regcomp`, `regexec` of `<regex.h>`), which
is not part of the program: `regcomp extended icase pattern` is `none` when the
compilation fails (a non-zero result) and otherwise the compiled expression,
given by the items on which `regexec` reports a match. -/
structure RegexLib where
  regcomp : Bool → Bool → List Nat → Option (List Nat → Bool)

/-- Body shared by `match_regex` (`extended = false`) and `match_eregex`
(`extended = true`), which differ in the `REG_EXTENDED` flag only. -/
def match_regex_with (re : RegexLib) (extended : Bool) (fold : Bool) (inp : input)
    (items : List (List Nat)) (num_items : Nat) (matches_ : List Nat) (num_matches : Nat) :
    Option MatchResult :=
  match c_str inp.text with
  | none => none
  | some text =>
    match re.regcomp extended fold text with
    | some regex =>
      match scan_items regex items num_items 0 matches_ 0 with
      | none => none
      | some (m, k) => some (0, m, k)
    | none => some (1, matches_, num_matches)

/-- Model of `match_regex`. -/
def match_regex (re : RegexLib) : Algorithm := match_regex_with re false

/-- Model of `match_eregex`. -/
def match_eregex (re : RegexLib) : Algorithm := match_regex_with re true

/-! ## The session state and `match` -/

/-- The session state: the global variables of `tmenu.c`.  `items` and
`matches_` hold the array slots; only the first `num_items` and `num_matches`
of them are live.  `inputs` is the undo chain, newest entry first.
`item_buf` holds the `item_buf_off` bytes carried over by `read_items`;
`columns` and `rows` are what `setup` reads from the terminal.  The defaults
are the initial values in the source. -/
structure State where
  head : Bool := false
  foot : Bool := false
  lines : Nat := 10
  prompt : List Nat := [62, 32]
  case_fold : Bool := true
  algorithm : Algorithm := match_words
  item_buf : List Nat := []
  columns : Nat := 80
  rows : Nat := 24
  items : List (List Nat) := []
  matches_ : List Nat := []
  inputs : List input := []
  header : Option (List Nat) := none
  footer : Option (List Nat) := none
  match_err : Bool := false
  items_size : Nat := 1024
  num_items : Nat := 0
  num_matches : Nat := 0
  match_index : Nat := 0
  input_point : Nat := 0

/-- The loop of `match` that looks for `item` in the new result:
`for (i = ...; i < num_matches; i++) if (matches[i] == item) { match_index = i; break; }`
after `match_index = 0`, run for `fuel` more iterations from `i`.  The `int`
`item` is converted to `size_t` by the comparison. -/
def find_item (m : List Nat) (item : Int) : Nat → Nat → Option Nat
  | 0, _ => some 0
  | fuel + 1, i =>
    match m[i]? with
    | none => none
    | some v => if v = size_of_int item then some i else find_item m item fuel (i + 1)

/-- The value of `int item = (match_index < num_matches) ? matches[match_index] : -1;`.
The conditional expression has type `size_t`, and its value is converted to
`int` by the initialisation; the `-1` of the second branch comes back as -1. -/
def selected_item (s : State) : Option Int :=
  if s.match_index < s.num_matches then (s.matches_[s.match_index]?).map int_of_size
  else some (-1)

/-- Model of `match`. -/
def match_ (s : State) : Option State :=
  match s.inputs with
  | [] => none
  | inp :: _ =>
    match selected_item s with
    | none => none
    | some item =>
      match s.algorithm s.case_fold inp s.items s.num_items s.matches_ s.num_matches with
      | none => none
      | some (err, m, k) =>
        match find_item m item k 0 with
        | none => none
        | some idx =>
          some { s with match_err := (err != 0), matches_ := m, num_matches := k,
                        match_index := idx }

/-! ## The keystroke dispatcher -/

/-- Model of `push_input`: a new entry with an uninitialised text block of
`length + 1` bytes becomes the top of the undo chain. -/
def push_input (s : State) (length : Nat) : State :=
  { s with inputs := { text := List.replicate (length + 1) none, length := length } :: s.inputs }

/-- Replace the text block of the newest entry (a write through `inputs->text`). -/
def set_text (s : State) (t : List Cell) : State :=
  match s.inputs with
  | [] => s
  | top :: rest => { s with inputs := { top with text := t } :: rest }

/-- Model of `printf(fmt)` called without further arguments: the bytes written.
`%%` writes one `%`; any other conversion specification needs an argument that
was not passed, and the result is undefined. -/
def printf : List Nat → Option (List Nat)
  | [] => some []
  | 37 :: 37 :: r => (printf r).map (fun t => 37 :: t)
  | 37 :: _ => none
  | c :: r => (printf r).map (fun t => c :: t)

/-- What handling input leads to: the session goes on in a new state, the
process exits having written `out` to standard output, or the behaviour is
undefined. -/
inductive Outcome where
  | running (s : State)
  | exited (out : List Nat) (code : Nat)
  | undefined

/-- An outcome of a step that ends with a call of `match`. -/
def Outcome.ofState : Option State → Outcome
  | some s => Outcome.running s
  | none => Outcome.undefined

/-- The state in which the session goes on, when it does. -/
def Outcome.state : Outcome → Option State
  | Outcome.running s => some s
  | _ => none

/-- The output and exit code, when the process has exited. -/
def Outcome.exit : Outcome → Option (List Nat × Nat)
  | Outcome.exited out code => some (out, code)
  | _ => none

def EXIT_MATCH : Nat := 0
def EXIT_NOMATCH : Nat := 1
def EXIT_ERROR : Nat := 2

/-- The first loop of the restrict branch of `read_input`, run for `fuel` more
matches from `j`: the items before `matches[j]` are freed and `items[matches[j]]`
moves to slot `k`.  Undefined when the inner `while` would run past the live
items. -/
def restrict_loop (matches_ : List Nat) (num_items : Nat) :
    Nat → Nat → Nat → Nat → List (List Nat) → Option (List (List Nat) × Nat)
  | 0, _, _, k, items => some (items, k)
  | fuel + 1, j, i, k, items =>
    match matches_[j]? with
    | none => none
    | some m =>
      if i ≤ m ∧ m < num_items then
        match items[m]? with
        | none => none
        | some it => restrict_loop matches_ num_items fuel (j + 1) (m + 1) (k + 1) (store items k it)
      else none

/-- The `esc` branch of `read_input`: the byte after an ESC. -/
def dispatch_esc (s : State) (c : Nat) : State :=
  if c = 60 then -- alt-<, first match
    if s.match_index > 0 then { s with match_index := 0 } else s
  else if c = 62 then -- alt->, last match
    if s.match_index < size_sub s.num_matches 1 then
      { s with match_index := size_sub s.num_matches 1 }
    else s
  else s

/-- The state of the C-k branch right before its call of `match`:
`push_input(input_point)` and `strncpy(inputs->text, inputs->next->text, input_point)`
have been done. -/
def kill_to_end_pushed (s : State) (top : input) : Option State :=
  (strncpy (List.replicate (s.input_point + 1) none) top.text s.input_point).map
    (fun t => set_text (push_input s s.input_point) t)

/-- C-k: kill to the end of the text. -/
def kill_to_end (s : State) (top : input) : Outcome :=
  if s.input_point < top.length then
    match kill_to_end_pushed s top with
    | none => Outcome.undefined
    | some s1 => Outcome.ofState (match_ s1)
  else Outcome.running s

/-- C-u: kill to the start of the text. -/
def kill_to_start (s : State) (top : input) : Outcome :=
  if s.input_point > 0 then
    let n := size_sub top.length s.input_point
    let s1 := push_input s n
    match strcpy (List.replicate (n + 1) none) 0 top.text s.input_point with
    | none => Outcome.undefined
    | some t => Outcome.ofState (match_ { set_text s1 t with input_point := 0 })
  else Outcome.running s

/-- C-d: delete the byte at the cursor. -/
def delete_char (s : State) (top : input) : Outcome :=
  if s.input_point < top.length then
    let n := size_sub top.length 1
    let s1 := push_input s n
    match (strncpy (List.replicate (n + 1) none) top.text s.input_point).bind
        (fun t => strcpy t s.input_point top.text (s.input_point + 1)) with
    | none => Outcome.undefined
    | some t => Outcome.ofState (match_ (set_text s1 t))
  else Outcome.running s

/-- DEL: delete the byte before the cursor. -/
def backspace (s : State) (top : input) : Outcome :=
  if s.input_point > 0 then
    let n := size_sub top.length 1
    let s1 := push_input s n
    match (strncpy (List.replicate (n + 1) none) top.text (s.input_point - 1)).bind
        (fun t => strcpy t (s.input_point - 1) top.text s.input_point) with
    | none => Outcome.undefined
    | some t => Outcome.ofState (match_ { set_text s1 t with input_point := s.input_point - 1 })
  else Outcome.running s

/-- The default branch for a printable byte `c`: insert it at the cursor. -/
def insert_char (s : State) (top : input) (c : Nat) : Outcome :=
  let n := top.length + 1
  let s1 := push_input s n
  match ((strncpy (List.replicate (n + 1) none) top.text s.input_point).bind
      (fun t => write_at t s.input_point [c])).bind
      (fun t => strcpy t (s.input_point + 1) top.text s.input_point) with
  | none => Outcome.undefined
  | some t => Outcome.ofState (match_ { set_text s1 t with input_point := s.input_point + 1 })

/-- C-_: undo. -/
def undo (s : State) (rest : List input) : Outcome :=
  match rest with
  | [] => Outcome.running s
  | prev :: older =>
    Outcome.ofState (match_ { s with inputs := prev :: older, input_point := prev.length })

/-- C-l: restrict the items to the current matches. -/
def restrict (s : State) : Outcome :=
  if s.num_matches > 0 ∧ s.num_matches < s.num_items then
    match restrict_loop s.matches_ s.num_items s.num_matches 0 0 0 s.items with
    | none => Outcome.undefined
    | some (items, k) =>
      Outcome.ofState (match_ { s with items := items, num_items := k,
                                       inputs := [{ text := [some 0], length := 0 }],
                                       input_point := 0, match_index := 0 })
  else Outcome.running s

/-- RET: accept the selected match. -/
def accept (s : State) : Outcome :=
  if s.match_index < s.num_matches then
    match s.matches_[s.match_index]? with
    | none => Outcome.undefined
    | some m =>
      if m < s.num_items then
        match s.items[m]? with
        | none => Outcome.undefined
        | some it =>
          match printf it with
          | none => Outcome.undefined
          | some out => Outcome.exited (out ++ [10]) EXIT_MATCH
      else Outcome.undefined
  else Outcome.exited [] EXIT_NOMATCH

/-- The main `switch` of `read_input` on a byte `c` other than ESC, with
`inputs` pointing at the entry `top` and `inputs->next` at the chain `rest`. -/
def dispatch_top (s : State) (top : input) (rest : List input) (c : Nat) : Outcome :=
    if c = 3 ∨ c = 7 then Outcome.exited [] EXIT_NOMATCH -- C-c, C-g
    else if c = 2 then -- C-b
      Outcome.running (if s.input_point > 0 then { s with input_point := s.input_point - 1 } else s)
    else if c = 6 then -- C-f
      Outcome.running
        (if s.input_point < top.length then { s with input_point := s.input_point + 1 } else s)
    else if c = 1 then -- C-a
      Outcome.running (if s.input_point > 0 then { s with input_point := 0 } else s)
    else if c = 5 then -- C-e
      Outcome.running
        (if s.input_point < top.length then { s with input_point := top.length } else s)
    else if c = 14 ∨ c = 18 then -- C-n, C-r
      Outcome.running
        (if s.match_index < size_sub s.num_matches 1 then { s with match_index := s.match_index + 1 }
         else if s.num_matches > 0 then { s with match_index := 0 }
         else s)
    else if c = 16 ∨ c = 19 then -- C-p, C-s
      Outcome.running
        (if s.match_index > 0 then { s with match_index := s.match_index - 1 }
         else if s.num_matches > 0 then { s with match_index := size_sub s.num_matches 1 }
         else s)
    else if c = 22 then Outcome.running s -- C-v
    else if c = 11 then kill_to_end s top
    else if c = 21 then kill_to_start s top
    else if c = 4 then delete_char s top
    else if c = 127 then backspace s top
    else if c = 31 then undo s rest
    else if c = 12 then restrict s
    else if c = 9 then Outcome.running s -- TAB
    else if c = 13 then accept s
    else if 32 ≤ c ∧ c ≤ 126 then insert_char s top c
    else Outcome.running s

/-- The main `switch` of `read_input` on a byte `c` other than ESC.  Every
branch that looks at the query dereferences `inputs`, which must not be null. -/
def dispatch (s : State) (c : Nat) : Outcome :=
  match s.inputs with
  | [] => Outcome.undefined
  | top :: rest => dispatch_top s top rest c

/-- The loop of `read_input` over the bytes available on the terminal, with the
local flag `esc`. -/
def read_input_loop : State → Bool → List Nat → Outcome
  | s, _, [] => Outcome.running s
  | s, true, c :: cs => read_input_loop (dispatch_esc s c) false cs
  | s, false, c :: cs =>
    if c = 27 then read_input_loop s true cs
    else
      match dispatch s c with
      | Outcome.running s1 => read_input_loop s1 false cs
      | o => o

/-- Model of `read_input` on the bytes `stream` delivered by the terminal. -/
def read_input (s : State) (stream : List Nat) : Outcome := read_input_loop s false stream

/-- The session right after `main` has pushed the initial query `input0` and
`setup` has called `match`, before any data has been read. -/
def startup (algorithm : Algorithm) (input0 : List Nat) : Option State :=
  match_ { algorithm := algorithm, inputs := [{ text := cbuf input0, length := input0.length }],
           input_point := input0.length }

/-- The live part of the match result: `matches[0..num_matches)`. -/
def State.result (s : State) : List Nat := s.matches_.take s.num_matches

/-- The live items: `items[0..num_items)`. -/
def State.live_items (s : State) : List (List Nat) := s.items.take s.num_items

/-- The text of the newest undo entry, as a C string. -/
def State.text (s : State) : Option (List Nat) :=
  match s.inputs with
  | [] => none
  | top :: _ => c_str top.text

/-! ## Startup and data input -/

/-- Model of `add_item`: the arrays grow by doubling when full and the item is
stored in slot `num_items`. -/
def add_item (s : State) (item : List Nat) : State :=
  { s with items_size := if s.num_items = s.items_size then 2 * s.items_size else s.items_size,
           items := store s.items s.num_items item,
           num_items := s.num_items + 1 }

/-- The effect of `read_items` on a chunk of the data stream that consists of
the complete, non-empty lines `new_items`, before the end of the stream and
with no header capture pending: every line is added and `match` is called. -/
def load_items (s : State) (new_items : List (List Nat)) : Option State :=
  match_ (new_items.foldl add_item s)

/-! ## Vocabulary of the properties, and example sessions -/

/-- `tok` occurs in `item` at offset `p`: the `tok.length` bytes of `item` from
offset `p` exist and agree with those of `tok` (up to ASCII case when `fold`). -/
def OccursAt (fold : Bool) (item tok : List Nat) (p : Nat) : Prop :=
  List.Forall₂ (fun a b => char_eq fold a b = true) ((item.drop p).take tok.length) tok

/-- The offsets `ps` place the tokens `toks` in `item` in order and without
overlap, the first one not before `lo`: token `j` occurs at `ps[j]`, and
`ps[j+1] ≥ ps[j] + |toks[j]|`. -/
def OrderedAt (fold : Bool) (item : List Nat) : Nat → List (List Nat) → List Nat → Prop
  | _, [], [] => True
  | lo, t :: ts, p :: ps =>
    lo ≤ p ∧ OccursAt fold item t p ∧ OrderedAt fold item (p + t.length) ts ps
  | _, _, _ => False

/-- A further call of `read_input`, on the bytes `stream`, when the session is
still running. -/
def Outcome.next (o : Outcome) (stream : List Nat) : Outcome :=
  match o with
  | Outcome.running s => read_input s stream
  | o => o

/-- The text of the selected item, `items[matches[match_index]]`, when the
selection cursor addresses a match. -/
def State.selected (s : State) : Option (List Nat) :=
  if s.match_index < s.num_matches then
    (s.matches_[s.match_index]?).bind (fun m => if m < s.num_items then s.items[m]? else none)
  else none

/-- Scenario A: word algorithm, case folding on, empty initial query, and the
four items read from the data stream. -/
def scenario_A : Outcome :=
  Outcome.ofState ((startup match_words []).bind (fun s =>
    load_items s [cstr "apple", cstr "banana", cstr "grape", cstr "pineapple"]))

/-- An undo entry is well formed when its block holds a NUL-terminated string
whose length is the recorded one. -/
def input.wf (inp : input) : Prop :=
  ∃ t : List Nat, 0 ∉ t ∧ inp.text = cbuf t ∧ inp.length = t.length

/-- The undo entry for the text `t`. -/
def input.of (t : List Nat) : input := { text := cbuf t, length := t.length }

/-- The three algorithms `main` can install in `algorithm`. -/
def KnownAlgorithm (a : Algorithm) : Prop :=
  a = match_words ∨ ∃ re : RegexLib, a = match_regex re ∨ a = match_eregex re

/-- Well-formedness of a session state, as far as the query editor and the
match engine rely on it: the undo chain is not empty and holds terminated
texts of the recorded lengths, the edit cursor lies within the current text,
the live parts of the arrays exist, and `algorithm` is one of the three match
functions. -/
structure Inv (s : State) : Prop where
  inputs_ne : s.inputs ≠ []
  inputs_wf : ∀ inp ∈ s.inputs, inp.wf
  point_le : ∀ top ∈ s.inputs.head?, s.input_point ≤ top.length
  items_le : s.num_items ≤ s.items.length
  matches_le : s.num_matches ≤ s.matches_.length
  alg : KnownAlgorithm s.algorithm

/-- Bytes that edit the query or move a cursor: every byte except quit (C-c,
C-g), kill-to-end (C-k), restrict (C-l), accept (RET), ESC and undo (C-_). -/
def edit_or_move (c : Nat) : Prop :=
  c ≠ 3 ∧ c ≠ 7 ∧ c ≠ 11 ∧ c ≠ 12 ∧ c ≠ 13 ∧ c ≠ 27 ∧ c ≠ 31

/-- The query text and the edit cursor of a state. -/
def State.query (s : State) : Option (List Nat) × Nat := (s.text, s.input_point)

/-- A session started with the initial query `ab` (option `-i`), after one
C-b: the text is `ab` and the edit cursor is at offset 1. -/
def query_ab_at_1 : Outcome := (Outcome.ofState (startup match_words (cstr "ab"))).next [2]

/-- Is the behaviour undefined? -/
def Outcome.is_undefined : Outcome → Bool
  | Outcome.undefined => true
  | _ => false

/-- A session with the word algorithm and the items `z`, `a1`, `a2`. -/
def restrict_example : Outcome :=
  Outcome.ofState ((startup match_words []).bind (fun s =>
    load_items s [cstr "z", cstr "a1", cstr "a2"]))

/-- A session with the word algorithm and two items that contain `%`. -/
def percent_example : Outcome :=
  Outcome.ofState ((startup match_words []).bind (fun s =>
    load_items s [cstr "50%% off", cstr "100%"]))

/-- A stand-in for the regular-expression library, used for examples only: the
empty pattern compiles and matches every item, any other pattern is rejected. -/
def toy_regex : RegexLib :=
  { regcomp := fun _ _ pattern => if pattern = [] then some (fun _ => true) else none }

/-- Bytes that `read_input` ignores outside an escape sequence: not one of the
control bytes of the `switch`, not ESC, and not printable. -/
def ignored_byte (c : Nat) : Prop :=
  c ≠ 1 ∧ c ≠ 2 ∧ c ≠ 3 ∧ c ≠ 4 ∧ c ≠ 5 ∧ c ≠ 6 ∧ c ≠ 7 ∧ c ≠ 9 ∧ c ≠ 11 ∧ c ≠ 12 ∧ c ≠ 13 ∧
  c ≠ 14 ∧ c ≠ 16 ∧ c ≠ 18 ∧ c ≠ 19 ∧ c ≠ 21 ∧ c ≠ 22 ∧ c ≠ 27 ∧ c ≠ 31 ∧ c ≠ 127 ∧
  ¬ (32 ≤ c ∧ c ≤ 126)

/-- The size of `item_buf`: the value of the macro `BUFSIZ` of `<stdio.h>` in
the GNU C library. -/
def BUFSIZ : Nat := 8192

/-- Model of `fgets(buf, n, stream)` for `n ≥ 2`, where `data` are the bytes
the stream can deliver now (up to its end, or up to the point where the
non-blocking descriptor has no more): a null result when there is none, and
otherwise the bytes stored before the terminating NUL, at most `n - 1` and not
going beyond the first newline, together with the bytes left in the stream. -/
def fgets (n : Nat) (data : List Nat) : Option (List Nat × List Nat) :=
  if data = [] then none
  else
    let avail := data.take (n - 1)
    let line := avail.takeWhile (fun c => c != 10)
    let chunk := if line.length < avail.length then line ++ [10] else line
    some (chunk, data.drop chunk.length)

/-- The `while (fgets(...))` loop of `read_items`; the first argument bounds
the number of iterations.  When `item_buf` has room for the terminating NUL
only, `fgets` reads nothing and returns an empty string, and the loop does not
end. -/
def read_lines : Nat → State → List Nat → Option State
  | 0, _, _ => none
  | fuel + 1, s, data =>
    if BUFSIZ - s.item_buf.length ≤ 1 then none
    else
      match fgets (BUFSIZ - s.item_buf.length) data with
      | none => some s
      | some (chunk, rest) =>
        let view := chunk.takeWhile (fun c => c != 0)
        if 10 ∈ view then
          let line := s.item_buf ++ view.takeWhile (fun c => c != 10)
          if line = [] then read_lines fuel { s with item_buf := [] } rest
          else if s.head = true ∧ s.header = none then
            read_lines fuel { s with item_buf := [], header := some line } rest
          else read_lines fuel (add_item { s with item_buf := [] } line) rest
        else read_lines fuel { s with item_buf := s.item_buf ++ view } rest

/-- The index `--num_items` evaluates to in `footer = items[--num_items]`. -/
def footer_index (s : State) : Nat := size_sub s.num_items 1

/-- The statement `footer = items[--num_items];`.  Undefined when the slot
read does not exist. -/
def capture_footer (s : State) : Option State :=
  match s.items[footer_index s]? with
  | none => none
  | some it => some { s with num_items := footer_index s, footer := some it }

/-- The `if (feof(stream))` block of `read_items`. -/
def end_of_stream (s : State) : Option State :=
  let s1 := if s.item_buf.length > 0 then add_item { s with item_buf := [] } s.item_buf else s
  if s1.foot = true ∧ s1.footer = none then capture_footer s1 else some s1

/-- Model of `read_items` on the bytes `data` that the stream delivers during
the call; `eof` tells whether the stream ended after them (`feof`). -/
def read_items (s : State) (data : List Nat) (eof : Bool) : Option State :=
  ((read_lines (data.length + 1) s data).bind
    (fun s1 => if eof then end_of_stream s1 else some s1)).bind match_

/-- The session right after startup with the options `-H` (`head`), `-F`
(`foot`), `-l` (`lines`, as converted to `size_t`), `-a` and `-i`. -/
def startup_opts (head foot : Bool) (lines : Nat) (algorithm : Algorithm) (input0 : List Nat) :
    Option State :=
  match_ { head := head, foot := foot, lines := lines, algorithm := algorithm,
           inputs := [{ text := cbuf input0, length := input0.length }],
           input_point := input0.length }

/-- What the event loop reacts to: bytes from the terminal, or bytes (and
possibly the end) of the data stream. -/
inductive Event where
  | keys (stream : List Nat)
  | data (bytes : List Nat) (eof : Bool)

/-- One iteration of the event loop of `main`. -/
def Outcome.step (o : Outcome) (e : Event) : Outcome :=
  match o with
  | Outcome.running s =>
    match e with
    | Event.keys stream => read_input s stream
    | Event.data bytes eof => Outcome.ofState (read_items s bytes eof)
  | o => o

/-- The event loop of `main` on a sequence of events. -/
def Outcome.run (o : Outcome) (es : List Event) : Outcome := es.foldl Outcome.step o

/-- A session started with header capture (`-H`) and the word algorithm. -/
def header_session : Outcome := Outcome.ofState (startup_opts true false 10 match_words [])

/-- A session started with footer capture (`-F`) and the word algorithm. -/
def footer_session : Outcome := Outcome.ofState (startup_opts false true 10 match_words [])

/-- A session started with header and footer capture (`-H -F`) and the word
algorithm. -/
def header_footer_session : Outcome :=
  Outcome.ofState (startup_opts true true 10 match_words [])

/-- Model of `isspace` in the "C" locale: space, and the controls from tab to
carriage return. -/
def isspace (c : Nat) : Bool := c == 32 || (9 ≤ c && c ≤ 13)

/-- The non-empty pieces into which the separators `sep` split a text, in
order: its maximal runs of bytes that are no separators. -/
def split_on (sep : Nat → Bool) (text : List Nat) : List (List Nat) :=
  (text.splitOnP sep).filter (fun w => !w.isEmpty)

/-- The tokens of a text when it is split on whitespace, as the specification
words it. -/
def whitespace_tokens (text : List Nat) : List (List Nat) := split_on isspace text

/-- The tokens of a text when it is split on the space character only. -/
def space_tokens (text : List Nat) : List (List Nat) := split_on (fun c => c == 32) text

/-- What one iteration of the row loop of `draw` writes after the cursor-down
sequence: nothing, a match line, or the match line in reverse video. -/
inductive Row where
  | blank
  | plain (line : List Nat)
  | highlighted (line : List Nat)
deriving DecidableEq

/-- The bound of the row loop of `draw`,
`lines - 1 - (header ? 1 : 0) - (footer ? 1 : 0)`, computed in `size_t`. -/
def row_bound (s : State) : Nat :=
  size_sub (size_sub (size_sub s.lines 1) (if s.header.isSome then 1 else 0))
    (if s.footer.isSome then 1 else 0)

/-- The body of the row loop of `draw` for the index `i`: when
`match_index + i < num_matches`, the item `items[matches[match_index + i]]`
is copied with `strncpy(line, ..., columns)` and written, in reverse video for
`i = 0`. -/
def draw_row (s : State) (i : Nat) : Option Row :=
  if (s.match_index + i) % SIZE_MOD < s.num_matches then
    match s.matches_[(s.match_index + i) % SIZE_MOD]? with
    | none => none
    | some m =>
      if m < s.num_items then
        match s.items[m]? with
        | none => none
        | some it =>
          some (if i = 0 then Row.highlighted (it.take s.columns)
                else Row.plain (it.take s.columns))
      else none
  else some Row.blank

/-- The row loop of `draw`, run for `fuel` more iterations from index `i`. -/
def draw_rows (s : State) : Nat → Nat → Option (List Row)
  | 0, _ => some []
  | fuel + 1, i =>
    match draw_row s i with
    | none => none
    | some r => (draw_rows s fuel (i + 1)).map (fun rs => r :: rs)

/-- The bytes of a row: the sequence `ESC [ E` and the line. -/
def Row.bytes : Row → List Nat
  | Row.blank => [27, 91, 69]
  | Row.plain line => [27, 91, 69] ++ line
  | Row.highlighted line => [27, 91, 69] ++ [27, 91, 55, 109] ++ line ++ [27, 91, 50, 55, 109]

/-- What `draw` writes to `stderr` before it calls `draw_prompt`: the clearing
sequence, the header, the rows and the footer. -/
def draw_window (s : State) : Option (List Nat) :=
  (draw_rows s (row_bound s) 0).map (fun rows =>
    [27, 91, 63, 50, 53, 108, 27, 91, 117, 27, 91, 74]
      ++ (match s.header with | some h => [27, 91, 69] ++ h | none => [])
      ++ (rows.map Row.bytes).flatten
      ++ (match s.footer with | some f => [27, 91, 69] ++ f | none => []))

/-- Is the row a match row? -/
def Row.is_match : Row → Bool
  | Row.blank => false
  | _ => true

/-- A session started with `-l 1 -H` and the word algorithm. -/
def one_line_header_session : Outcome :=
  Outcome.ofState (startup_opts true false 1 match_words [])

/-! ## Properties -/

theorem starts_with_iff (fold : Bool) (hay needle : List Nat) :
    starts_with fold hay needle = true ↔ OccursAt fold hay needle 0 := by
  unfold OccursAt
  induction needle generalizing hay with
  | nil => simp [starts_with]
  | cons n ns ih =>
    cases hay with
    | nil => simp [starts_with]
    | cons h hs =>
      simp only [starts_with, Bool.and_eq_true, List.drop_zero, List.length_cons, List.take_succ_cons,
        List.forall₂_cons, ih hs]

theorem occursAt_drop (fold : Bool) (item tok : List Nat) (a b : Nat) :
    OccursAt fold (item.drop a) tok b ↔ OccursAt fold item tok (a + b) := by
  unfold OccursAt
  rw [List.drop_drop]

/-- Without case folding an occurrence is an exact one. -/
theorem occursAt_exact (item tok : List Nat) (p : Nat) :
    OccursAt false item tok p ↔ (item.drop p).take tok.length = tok := by
  unfold OccursAt
  simp [char_eq, List.forall₂_eq_eq_eq]

/-- With case folding an occurrence agrees with the token byte by byte after
the ASCII capitals `A`..`Z` have been mapped to `a`..`z`. -/
theorem occursAt_fold (item tok : List Nat) (p : Nat) :
    OccursAt true item tok p ↔
      ((item.drop p).take tok.length).map tolower = tok.map tolower := by
  unfold OccursAt
  simp only [char_eq, if_true, beq_iff_eq]
  generalize (item.drop p).take tok.length = l
  induction l generalizing tok with
  | nil =>
    cases tok with
    | nil => simp
    | cons b bs => simp
  | cons a as ih =>
    cases tok with
    | nil => simp
    | cons b bs => simp [List.forall₂_cons, ih bs]

theorem strstr_some (fold : Bool) (hay needle : List Nat) (q : Nat)
    (h : strstr fold hay needle = some q) :
    OccursAt fold hay needle q ∧ ∀ q', q' < q → ¬ OccursAt fold hay needle q' := by
  induction hay generalizing q with
  | nil =>
    simp only [strstr] at h
    split at h
    · rename_i hs
      cases h
      exact ⟨(starts_with_iff _ _ _).1 hs, by intro q' hq; omega⟩
    · cases h
  | cons c cs ih =>
    simp only [strstr] at h
    split at h
    · rename_i hs
      cases h
      exact ⟨(starts_with_iff _ _ _).1 hs, by intro q' hq; omega⟩
    · rename_i hs
      cases hq : strstr fold cs needle with
      | none => simp [hq] at h
      | some r =>
        simp [hq] at h
        subst h
        obtain ⟨h1, h2⟩ := ih r hq
        refine ⟨?_, ?_⟩
        · have := (occursAt_drop fold (c :: cs) needle 1 r).1 (by simpa using h1)
          simpa [Nat.add_comm] using this
        · intro q' hq'
          cases q' with
          | zero => intro hc; exact hs ((starts_with_iff _ _ _).2 hc)
          | succ q'' =>
            intro hc
            apply h2 q'' (by omega)
            have := (occursAt_drop fold (c :: cs) needle 1 q'').2 (by simpa [Nat.add_comm] using hc)
            simpa using this

theorem strstr_none (fold : Bool) (hay needle : List Nat)
    (h : strstr fold hay needle = none) (q : Nat) : ¬ OccursAt fold hay needle q := by
  induction hay generalizing q with
  | nil =>
    simp only [strstr] at h
    split at h
    · cases h
    · rename_i hs
      intro hc
      apply hs
      rw [starts_with_iff]
      unfold OccursAt at *
      simpa using hc
  | cons c cs ih =>
    simp only [strstr] at h
    split at h
    · cases h
    · rename_i hs
      cases hq : strstr fold cs needle with
      | some r => simp [hq] at h
      | none =>
        cases q with
        | zero => intro hc; exact hs ((starts_with_iff _ _ _).2 hc)
        | succ q'' =>
          intro hc
          apply ih hq q''
          have := (occursAt_drop fold (c :: cs) needle 1 q'').2 (by simpa [Nat.add_comm] using hc)
          simpa using this


theorem orderedAt_mono (fold : Bool) (item : List Nat) (lo lo' : Nat) (ws : List (List Nat))
    (ps : List Nat) (hle : lo ≤ lo') (h : OrderedAt fold item lo' ws ps) :
    OrderedAt fold item lo ws ps := by
  cases ws with
  | nil => cases ps <;> simp_all [OrderedAt]
  | cons t ts =>
    cases ps with
    | nil => simp [OrderedAt] at h
    | cons p ps =>
      simp only [OrderedAt] at h ⊢
      exact ⟨by omega, h.2⟩

theorem scan_words_sound (fold : Bool) (item : List Nat) (ws : List (List Nat)) (lo : Nat)
    (h : scan_words fold (item.drop lo) ws = true) : ∃ ps, OrderedAt fold item lo ws ps := by
  induction ws generalizing lo with
  | nil => exact ⟨[], by simp [OrderedAt]⟩
  | cons t ts ih =>
    simp only [scan_words] at h
    cases hq : strstr fold (item.drop lo) t with
    | none => simp [hq] at h
    | some q =>
      simp only [hq, List.drop_drop] at h
      obtain ⟨hocc, -⟩ := strstr_some fold _ _ _ hq
      rw [occursAt_drop] at hocc
      obtain ⟨ps, hps⟩ := ih (lo + q + t.length) (by rw [← h]; congr 2; omega)
      exact ⟨(lo + q) :: ps, by simp only [OrderedAt]; exact ⟨by omega, hocc, hps⟩⟩

theorem scan_words_complete (fold : Bool) (item : List Nat) (ws : List (List Nat)) (lo : Nat)
    (ps : List Nat) (h : OrderedAt fold item lo ws ps) :
    scan_words fold (item.drop lo) ws = true := by
  induction ws generalizing lo ps with
  | nil => simp [scan_words]
  | cons t ts ih =>
    cases ps with
    | nil => simp [OrderedAt] at h
    | cons p ps =>
      simp only [OrderedAt] at h
      obtain ⟨hlo, hocc, hrest⟩ := h
      simp only [scan_words]
      have hocc' : OccursAt fold (item.drop lo) t (p - lo) := by
        rw [occursAt_drop]
        have : lo + (p - lo) = p := by omega
        rw [this]; exact hocc
      cases hq : strstr fold (item.drop lo) t with
      | none => exact absurd hocc' (strstr_none fold _ _ hq _)
      | some q =>
        obtain ⟨-, hmin⟩ := strstr_some fold _ _ _ hq
        have hqle : q ≤ p - lo := by
          by_contra hc
          exact hmin (p - lo) (by omega) hocc'
        simp only [List.drop_drop]
        have := ih (lo + q + t.length) ps
          (orderedAt_mono fold item _ (p + t.length) ts ps (by omega) hrest)
        rw [← this]; congr 2; omega

/-- The greedy scan of `match_words` succeeds exactly when ordered,
non-overlapping occurrences of the words exist. -/
theorem scan_words_iff (fold : Bool) (item : List Nat) (ws : List (List Nat)) :
    scan_words fold item ws = true ↔ ∃ ps, OrderedAt fold item 0 ws ps := by
  constructor
  · intro h
    exact scan_words_sound fold item ws 0 (by simpa using h)
  · rintro ⟨ps, h⟩
    simpa using scan_words_complete fold item ws 0 ps h


theorem c_str_cbuf (text : List Nat) (h0 : 0 ∉ text) : c_str (cbuf text) = some text := by
  induction text with
  | nil => simp [cbuf, c_str]
  | cons c cs ih =>
    have hc : c ≠ 0 := by intro h; apply h0; simp [h]
    have hcs : 0 ∉ cs := by intro h; apply h0; simp [h]
    have := ih hcs
    simp only [cbuf] at this
    simp [cbuf, c_str, hc, this]

theorem store_take_succ {α : Type} (a : List α) (k : Nat) (v : α) (hk : k ≤ a.length) :
    (store a k v).take (k + 1) = a.take k ++ [v] := by
  unfold store
  rw [List.take_append_eq_append_take]
  simp [List.length_take, Nat.min_eq_left hk]

theorem store_length {α : Type} (a : List α) (k : Nat) (v : α) (hk : k ≤ a.length) :
    k + 1 ≤ (store a k v).length := by
  unfold store
  simp [List.length_take, Nat.min_eq_left hk]

theorem scan_items_spec (test : List Nat → Bool) (items : List (List Nat)) (fuel i : Nat)
    (m : List Nat) (k : Nat) (hi : i + fuel ≤ items.length) (hk : k ≤ m.length) :
    ∃ m' k', scan_items test items fuel i m k = some (m', k') ∧ k' ≤ m'.length ∧
      m'.take k' = m.take k ++ (List.range' i fuel).filter (fun j => test (items.getD j [])) := by
  induction fuel generalizing i m k with
  | zero => exact ⟨m, k, by simp [scan_items], hk, by simp⟩
  | succ f ih =>
    have hlt : i < items.length := by omega
    simp only [scan_items, List.getElem?_eq_getElem hlt, List.range'_succ, List.filter_cons,
      List.getD_eq_getElem?_getD, Option.getD_some]
    by_cases ht : test items[i] = true
    · simp only [ht, if_true]
      obtain ⟨m', k', h1, h2, h3⟩ := ih (i + 1) (store m k i) (k + 1) (by omega)
        (store_length m k i hk)
      refine ⟨m', k', h1, h2, ?_⟩
      rw [h3, store_take_succ m k i hk]
      simp [List.getD_eq_getElem?_getD]
    · simp only [ht]
      obtain ⟨m', k', h1, h2, h3⟩ := ih (i + 1) m k (by omega) hk
      refine ⟨m', k', by simpa using h1, h2, ?_⟩
      rw [h3]
      simp [List.getD_eq_getElem?_getD]


theorem fill_all_spec (fuel i : Nat) (m : List Nat) (hi : i ≤ m.length) :
    i + fuel ≤ (fill_all fuel i m).length ∧
      (fill_all fuel i m).take (i + fuel) = m.take i ++ List.range' i fuel := by
  induction fuel generalizing i m with
  | zero => simp [fill_all, hi]
  | succ f ih =>
    obtain ⟨h1, h2⟩ := ih (i + 1) (store m i i) (store_length m i i hi)
    simp only [fill_all]
    refine ⟨by omega, ?_⟩
    have e : i + (f + 1) = i + 1 + f := by omega
    rw [e, h2, store_take_succ m i i hi]
    simp [List.range'_succ]

theorem match_words_some (fold : Bool) (text : List Nat) (len : Nat) (items : List (List Nat))
    (n : Nat) (m0 : List Nat) (k0 : Nat) (h0 : 0 ∉ text) (hw : query_words text ≠ [])
    (hn : n ≤ items.length) :
    ∃ m k, match_words fold ⟨cbuf text, len⟩ items n m0 k0 = some (0, m, k) ∧
      k ≤ m.length ∧
      m.take k = (List.range n).filter
        (fun j => scan_words fold (items.getD j []) (query_words text)) := by
  obtain ⟨m, k, h1, h2, h3⟩ := scan_items_spec
    (fun it => scan_words fold it (query_words text)) items n 0 m0 0 (by omega)
    (by omega)
  refine ⟨m, k, ?_, h2, ?_⟩
  · have hlen : (query_words text).length ≠ 0 := by
      intro h; exact hw (List.length_eq_zero.1 h)
    simp [match_words, c_str_cbuf text h0, hlen, h1]
  · rw [h3]; simp [List.range_eq_range']

theorem match_words_none (fold : Bool) (text : List Nat) (len : Nat) (items : List (List Nat))
    (n : Nat) (m0 : List Nat) (k0 : Nat) (h0 : 0 ∉ text) (hw : query_words text = []) :
    match_words fold ⟨cbuf text, len⟩ items n m0 k0 = some (0, fill_all n 0 m0, n) ∧
      n ≤ (fill_all n 0 m0).length ∧ (fill_all n 0 m0).take n = List.range n := by
  obtain ⟨h1, h2⟩ := fill_all_spec n 0 m0 (by omega)
  refine ⟨by simp [match_words, c_str_cbuf text h0, hw], by omega, ?_⟩
  rw [Nat.zero_add] at h2
  rw [h2]; simp [List.range_eq_range']

/-- C1. For a query with at least one word, `match_words` reports no error and
puts index `i` in the result iff `i` is an item index and the words of the
query occur in `items[i]` as ordered, non-overlapping substrings (compared
exactly, or up to ASCII case when `fold` is set): offsets `ps` exist with word
`j` at `ps[j]` and `ps[j+1] ≥ ps[j] + |word j|`. -/
theorem match_words_ordered_occurrences (fold : Bool) (text : List Nat)
    (items : List (List Nat)) (m0 : List Nat) (k0 : Nat) (h0 : 0 ∉ text)
    (hw : query_words text ≠ []) :
    ∃ m k, match_words fold ⟨cbuf text, text.length⟩ items items.length m0 k0 = some (0, m, k) ∧
      ∀ i, i ∈ m.take k ↔
        ∃ h : i < items.length, ∃ ps, OrderedAt fold (items.get ⟨i, h⟩) 0 (query_words text) ps := by
  obtain ⟨m, k, h1, -, h3⟩ :=
    match_words_some fold text text.length items items.length m0 k0 h0 hw (le_refl _)
  refine ⟨m, k, h1, ?_⟩
  intro i
  rw [h3, List.mem_filter, List.mem_range, scan_words_iff]
  constructor
  · rintro ⟨hi, ps, hps⟩
    refine ⟨hi, ps, ?_⟩
    simpa [List.getD_eq_getElem?_getD, List.getElem?_eq_getElem hi] using hps
  · rintro ⟨hi, ps, hps⟩
    refine ⟨hi, ps, ?_⟩
    simpa [List.getD_eq_getElem?_getD, List.getElem?_eq_getElem hi] using hps

theorem match_words_ordered_occurrences_witness :
    (0 ∉ cstr "a p") ∧ query_words (cstr "a p") ≠ [] ∧
    ∃ m k, match_words true ⟨cbuf (cstr "a p"), (cstr "a p").length⟩
        [cstr "Apple", cstr "pa"] [cstr "Apple", cstr "pa"].length [] 0 = some (0, m, k) ∧
      ∀ i, i ∈ m.take k ↔
        ∃ h : i < [cstr "Apple", cstr "pa"].length,
          ∃ ps, OrderedAt true ([cstr "Apple", cstr "pa"].get ⟨i, h⟩) 0
            (query_words (cstr "a p")) ps :=
  ⟨by decide, by decide,
    match_words_ordered_occurrences true (cstr "a p") [cstr "Apple", cstr "pa"] [] 0
      (by decide) (by decide)⟩


/-- C2 (counterexample). In Scenario A the match result after `a`, `p` is not
`[0, 3]`, the selection after one "next" is not `pineapple`, and "accept" then
does not output `pineapple`. -/
theorem scenario_A_ap_is_not_apple_pineapple :
    (((scenario_A.next [97]).next [112]).state.map State.result ≠ some [0, 3]) ∧
    ((((scenario_A.next [97]).next [112]).next [14]).state.bind State.selected
      ≠ some (cstr "pineapple")) ∧
    (((((scenario_A.next [97]).next [112]).next [14]).next [13]).exit
      ≠ some (cstr "pineapple" ++ [10], 0)) := by
  decide

/-- C2 (amended). Scenario A starts from the empty query with case folding on.
After `a`, `p` the match result is `[0, 2, 3]` (`apple`, `grape`, `pineapple`:
`grape` contains `ap` too) with the selection on `apple`; one "next" (C-n)
moves the selection to `grape`, which "accept" (RET) then writes, with a
newline and exit code 0; a second "next" reaches `pineapple`, which "accept"
then writes with exit code 0. -/
theorem scenario_A_ap_matches_grape_too :
    (scenario_A.state.map State.text = some (some [])) ∧
    (scenario_A.state.map State.case_fold = some true) ∧
    (((scenario_A.next [97]).next [112]).state.map State.result = some [0, 2, 3]) ∧
    (((scenario_A.next [97]).next [112]).state.map State.live_items
      = some [cstr "apple", cstr "banana", cstr "grape", cstr "pineapple"]) ∧
    (((scenario_A.next [97]).next [112]).state.bind State.selected = some (cstr "apple")) ∧
    ((((scenario_A.next [97]).next [112]).next [14]).state.bind State.selected
      = some (cstr "grape")) ∧
    (((((scenario_A.next [97]).next [112]).next [14]).next [13]).exit
      = some (cstr "grape" ++ [10], 0)) ∧
    (((((scenario_A.next [97]).next [112]).next [14]).next [14]).state.bind State.selected
      = some (cstr "pineapple")) ∧
    ((((((scenario_A.next [97]).next [112]).next [14]).next [14]).next [13]).exit
      = some (cstr "pineapple" ++ [10], 0)) := by
  decide

theorem write_at_fill (pre bytes : List Nat) (r off : Nat) (hoff : off = pre.length)
    (hr : bytes.length ≤ r) :
    write_at (pre.map some ++ List.replicate r (none : Cell)) off bytes
      = some ((pre ++ bytes).map some ++ List.replicate (r - bytes.length) none) := by
  subst hoff
  unfold write_at
  have hlen : pre.length + bytes.length ≤ (pre.map some ++ List.replicate r (none : Cell)).length := by
    simp; omega
  rw [if_pos hlen]
  congr 1
  have h1 : List.take pre.length (pre.map some ++ List.replicate r (none : Cell)) = pre.map some := by
    rw [List.take_append_of_le_length (by simp)]
    simp [List.take_of_length_le]
  have h2 : List.drop (pre.length + bytes.length) (pre.map some ++ List.replicate r (none : Cell))
      = List.replicate (r - bytes.length) none := by
    have : pre.length + bytes.length = (pre.map some : List Cell).length + bytes.length := by simp
    rw [this, List.drop_append]
    simp
  rw [h1, h2]
  simp

theorem strncpy_bytes_cbuf (t : List Nat) (n : Nat) (h0 : 0 ∉ t) (hn : n ≤ t.length) :
    strncpy_bytes (cbuf t) n = some (t.take n) := by
  induction t generalizing n with
  | nil =>
    have : n = 0 := by simpa using hn
    subst this
    simp [strncpy_bytes]
  | cons c cs ih =>
    cases n with
    | zero => simp [strncpy_bytes]
    | succ n =>
      have hc : c ≠ 0 := by intro h; apply h0; simp [h]
      have hcs : 0 ∉ cs := by intro h; apply h0; simp [h]
      have := ih n hcs (by simpa using hn)
      simp only [cbuf] at this
      simp [cbuf, strncpy_bytes, hc, this]

theorem cbuf_drop (t : List Nat) (p : Nat) (hp : p ≤ t.length) :
    (cbuf t).drop p = cbuf (t.drop p) := by
  unfold cbuf
  rw [List.drop_append_of_le_length (by simpa using hp)]
  simp

theorem cbuf_length (t : List Nat) : (cbuf t).length = t.length + 1 := by
  simp [cbuf]

theorem strcpy_cbuf (dst : List Cell) (doff : Nat) (t : List Nat) (p : Nat) (h0 : 0 ∉ t)
    (hp : p ≤ t.length) :
    strcpy dst doff (cbuf t) p = write_at dst doff (t.drop p ++ [0]) := by
  unfold strcpy
  have h0' : 0 ∉ t.drop p := fun h => h0 (List.mem_of_mem_drop h)
  rw [if_pos (by rw [cbuf_length]; omega), cbuf_drop t p hp, c_str_cbuf _ h0']
  rfl

theorem strncpy_blank (t : List Nat) (n r : Nat) (h0 : 0 ∉ t) (hn : n ≤ t.length) (hr : n ≤ r) :
    strncpy (List.replicate r (none : Cell)) (cbuf t) n
      = some ((t.take n).map some ++ List.replicate (r - n) none) := by
  unfold strncpy
  rw [strncpy_bytes_cbuf t n h0 hn]
  have := write_at_fill [] (t.take n) r 0 rfl (by simp; omega)
  simp only [List.map_nil, List.nil_append] at this
  simp only [Option.some_bind, this]
  simp [Nat.min_eq_left hn]

/-- The block built by the insert branch. -/
theorem insert_block (t : List Nat) (p c : Nat) (h0 : 0 ∉ t) (hp : p ≤ t.length) :
    ((strncpy (List.replicate (t.length + 1 + 1) none) (cbuf t) p).bind
      (fun b => write_at b p [c])).bind (fun b => strcpy b (p + 1) (cbuf t) p)
      = some (cbuf (t.take p ++ c :: t.drop p)) := by
  rw [strncpy_blank t p _ h0 hp (by omega)]
  simp only [Option.some_bind]
  rw [write_at_fill (t.take p) [c] _ p (by simp [Nat.min_eq_left hp]) (by simp; omega)]
  simp only [Option.some_bind]
  rw [strcpy_cbuf _ _ t p h0 hp]
  rw [write_at_fill (t.take p ++ [c]) (t.drop p ++ [0]) _ (p + 1)
    (by simp [Nat.min_eq_left hp]) (by simp; omega)]
  simp [cbuf]
  omega

theorem size_sub_of_le (a b : Nat) (h : b ≤ a) : size_sub a b = a - b := by
  simp [size_sub, h]

theorem delete_block (t : List Nat) (p : Nat) (h0 : 0 ∉ t) (hp : p < t.length) :
    (strncpy (List.replicate (size_sub t.length 1 + 1) none) (cbuf t) p).bind
      (fun b => strcpy b p (cbuf t) (p + 1))
      = some (cbuf (t.take p ++ t.drop (p + 1))) := by
  rw [size_sub_of_le _ _ (by omega), strncpy_blank t p _ h0 (by omega) (by omega)]
  simp only [Option.some_bind]
  rw [strcpy_cbuf _ _ t (p + 1) h0 (by omega)]
  rw [write_at_fill (t.take p) (t.drop (p + 1) ++ [0]) _ p
    (by simp; omega) (by simp; omega)]
  simp [cbuf]
  omega

theorem backspace_block (t : List Nat) (p : Nat) (h0 : 0 ∉ t) (hp0 : 0 < p)
    (hp : p ≤ t.length) :
    (strncpy (List.replicate (size_sub t.length 1 + 1) none) (cbuf t) (p - 1)).bind
      (fun b => strcpy b (p - 1) (cbuf t) p)
      = some (cbuf (t.take (p - 1) ++ t.drop p)) := by
  rw [size_sub_of_le _ _ (by omega), strncpy_blank t (p - 1) _ h0 (by omega) (by omega)]
  simp only [Option.some_bind]
  rw [strcpy_cbuf _ _ t p h0 hp]
  rw [write_at_fill (t.take (p - 1)) (t.drop p ++ [0]) _ (p - 1)
    (by simp; omega) (by simp; omega)]
  simp [cbuf]
  omega

theorem kill_to_start_block (t : List Nat) (p : Nat) (h0 : 0 ∉ t) (hp : p ≤ t.length) :
    strcpy (List.replicate (size_sub t.length p + 1) none) 0 (cbuf t) p
      = some (cbuf (t.drop p)) := by
  rw [size_sub_of_le _ _ hp, strcpy_cbuf _ _ t p h0 hp]
  have := write_at_fill [] (t.drop p ++ [0]) (t.length - p + 1) 0 rfl (by simp)
  simp only [List.map_nil, List.nil_append] at this
  rw [this]
  simp [cbuf]

theorem known_algorithm_total (a : Algorithm) (ha : KnownAlgorithm a) (fold : Bool)
    (inp : input) (hinp : inp.wf) (items : List (List Nat)) (n : Nat) (hn : n ≤ items.length)
    (m0 : List Nat) (k0 : Nat) (hk0 : k0 ≤ m0.length) :
    ∃ err m k, a fold inp items n m0 k0 = some (err, m, k) ∧ k ≤ m.length := by
  obtain ⟨t, h0, htext, hlen⟩ := hinp
  have hinp : inp = ⟨cbuf t, inp.length⟩ := by cases inp; simp_all
  rcases ha with rfl | ⟨re, rfl | rfl⟩
  · rw [hinp]
    by_cases hw : query_words t = []
    · obtain ⟨h1, h2, -⟩ := match_words_none fold t inp.length items n m0 k0 h0 hw
      exact ⟨0, _, _, h1, h2⟩
    · obtain ⟨m, k, h1, h2, -⟩ := match_words_some fold t inp.length items n m0 k0 h0 hw hn
      exact ⟨0, m, k, h1, h2⟩
  · simp only [match_regex, match_regex_with, htext, c_str_cbuf t h0]
    cases hre : re.regcomp false fold t with
    | none => exact ⟨1, m0, k0, rfl, hk0⟩
    | some regex =>
      obtain ⟨m, k, h1, h2, -⟩ := scan_items_spec regex items n 0 m0 0 (by omega) (by omega)
      exact ⟨0, m, k, by simp [h1], h2⟩
  · simp only [match_eregex, match_regex_with, htext, c_str_cbuf t h0]
    cases hre : re.regcomp true fold t with
    | none => exact ⟨1, m0, k0, rfl, hk0⟩
    | some regex =>
      obtain ⟨m, k, h1, h2, -⟩ := scan_items_spec regex items n 0 m0 0 (by omega) (by omega)
      exact ⟨0, m, k, by simp [h1], h2⟩

theorem find_item_eq (m : List Nat) (item : Int) (fuel i : Nat) (h : i + fuel ≤ m.length) :
    find_item m item fuel i
      = some (if size_of_int item ∈ (m.drop i).take fuel
              then i + ((m.drop i).take fuel).indexOf (size_of_int item) else 0) := by
  induction fuel generalizing i with
  | zero => simp [find_item]
  | succ f ih =>
    have hlt : i < m.length := by omega
    have hd : m.drop i = m[i] :: m.drop (i + 1) := List.drop_eq_getElem_cons hlt
    simp only [find_item, List.getElem?_eq_getElem hlt, hd, List.take_succ_cons]
    by_cases hv : m[i] = size_of_int item
    · simp [hv]
    · rw [if_neg hv, ih (i + 1) (by omega)]
      have hv' : ¬ size_of_int item = m[i] := fun h => hv h.symm
      simp only [List.mem_cons, hv', false_or]
      split
      · rw [List.indexOf_cons_ne _ hv]; congr 1; omega
      · rfl

theorem selected_item_some (s : State) (hm : s.num_matches ≤ s.matches_.length) :
    ∃ item, selected_item s = some item := by
  unfold selected_item
  split
  · rename_i h
    exact ⟨_, by rw [List.getElem?_eq_getElem (by omega)]; rfl⟩
  · exact ⟨_, rfl⟩

theorem match_eq (s : State) (inp : input) (rest : List input) (hin : s.inputs = inp :: rest)
    (item : Int) (hsel : selected_item s = some item) (err : Nat) (m : List Nat) (k : Nat)
    (halg : s.algorithm s.case_fold inp s.items s.num_items s.matches_ s.num_matches
      = some (err, m, k))
    (hk : k ≤ m.length) :
    match_ s = some { s with
      match_err := (err != 0), matches_ := m, num_matches := k,
      match_index := if size_of_int item ∈ m.take k
        then (m.take k).indexOf (size_of_int item) else 0 } := by
  have hf := find_item_eq m item k 0 (by omega)
  simp only [List.drop_zero, Nat.zero_add] at hf
  simp only [match_, hin, hsel, halg, hf]

theorem set_text_push_input (s : State) (n : Nat) (b : List Cell) :
    set_text (push_input s n) b = { s with inputs := { text := b, length := n } :: s.inputs } := by
  simp [set_text, push_input]

theorem match_inv (s : State) (h : Inv s) :
    ∃ s', match_ s = some s' ∧ s'.inputs = s.inputs ∧ s'.input_point = s.input_point ∧
      s'.items = s.items ∧ s'.num_items = s.num_items ∧ Inv s' := by
  obtain ⟨hne, hwf, hpt, hit, hmt, halg⟩ := h
  cases hin : s.inputs with
  | nil => exact absurd hin hne
  | cons inp rest =>
    obtain ⟨item, hsel⟩ := selected_item_some s hmt
    obtain ⟨err, m, k, ha, hk⟩ := known_algorithm_total s.algorithm halg s.case_fold inp
      (hwf inp (by simp [hin])) s.items s.num_items hit s.matches_ s.num_matches hmt
    refine ⟨_, match_eq s inp rest hin item hsel err m k ha hk, ?_, rfl, rfl, rfl, ?_⟩
    · simp [hin]
    · exact ⟨by simp [hin], by simpa [hin] using hwf, by simpa [hin] using hpt, hit, hk, halg⟩

theorem insert_char_eq (s : State) (top : input) (t : List Nat) (c : Nat) (h0 : 0 ∉ t)
    (htext : top.text = cbuf t) (hlen : top.length = t.length) (hp : s.input_point ≤ t.length) :
    insert_char s top c = Outcome.ofState (match_ { s with
      inputs := input.of (t.take s.input_point ++ c :: t.drop s.input_point) :: s.inputs,
      input_point := s.input_point + 1 }) := by
  unfold insert_char
  simp only [htext, hlen, insert_block t s.input_point c h0 hp, set_text_push_input]
  congr 3
  simp [input.of, Nat.min_eq_left hp]
  omega

theorem delete_char_eq (s : State) (top : input) (t : List Nat) (h0 : 0 ∉ t)
    (htext : top.text = cbuf t) (hlen : top.length = t.length) (hp : s.input_point < t.length) :
    delete_char s top = Outcome.ofState (match_ { s with
      inputs := input.of (t.take s.input_point ++ t.drop (s.input_point + 1)) :: s.inputs }) := by
  unfold delete_char
  simp only [htext, hlen, hp, if_true, delete_block t s.input_point h0 hp, set_text_push_input]
  congr 3
  simp [input.of, size_sub_of_le _ _ (show 1 ≤ t.length by omega)]
  omega

theorem backspace_eq (s : State) (top : input) (t : List Nat) (h0 : 0 ∉ t)
    (htext : top.text = cbuf t) (hlen : top.length = t.length) (hp0 : 0 < s.input_point)
    (hp : s.input_point ≤ t.length) :
    backspace s top = Outcome.ofState (match_ { s with
      inputs := input.of (t.take (s.input_point - 1) ++ t.drop s.input_point) :: s.inputs,
      input_point := s.input_point - 1 }) := by
  unfold backspace
  simp only [htext, hlen, gt_iff_lt, hp0, if_true, backspace_block t s.input_point h0 hp0 hp,
    set_text_push_input]
  congr 3
  simp [input.of, size_sub_of_le _ _ (show 1 ≤ t.length by omega)]
  omega

theorem kill_to_start_eq (s : State) (top : input) (t : List Nat) (h0 : 0 ∉ t)
    (htext : top.text = cbuf t) (hlen : top.length = t.length) (hp0 : 0 < s.input_point)
    (hp : s.input_point ≤ t.length) :
    kill_to_start s top = Outcome.ofState (match_ { s with
      inputs := input.of (t.drop s.input_point) :: s.inputs, input_point := 0 }) := by
  unfold kill_to_start
  simp only [htext, hlen, gt_iff_lt, hp0, if_true, kill_to_start_block t s.input_point h0 hp,
    set_text_push_input]
  congr 3
  simp [input.of, size_sub_of_le _ _ hp]

theorem inv_point (s : State) (h : Inv s) (q : Nat)
    (hq : ∀ top ∈ s.inputs.head?, q ≤ top.length) : Inv { s with input_point := q } :=
  ⟨h.1, h.2, hq, h.4, h.5, h.6⟩

theorem inv_index (s : State) (h : Inv s) (q : Nat) : Inv { s with match_index := q } :=
  ⟨h.1, h.2, h.3, h.4, h.5, h.6⟩

theorem edit_step (s : State) (h : Inv s) (t : List Nat) (h0 : 0 ∉ t) (p : Nat)
    (hp : p ≤ t.length) :
    ∃ s', Outcome.ofState (match_ { s with inputs := input.of t :: s.inputs, input_point := p })
        = Outcome.running s' ∧ Inv s' ∧ s'.inputs = input.of t :: s.inputs ∧
      s'.input_point = p ∧ s'.items = s.items ∧ s'.num_items = s.num_items := by
  have hinv : Inv { s with inputs := input.of t :: s.inputs, input_point := p } := by
    refine ⟨by simp, ?_, ?_, h.4, h.5, h.6⟩
    · intro inp hinp
      simp only [List.mem_cons] at hinp
      rcases hinp with rfl | hinp
      · exact ⟨t, h0, rfl, rfl⟩
      · exact h.2 inp hinp
    · intro top htop
      simp only [List.head?_cons, Option.mem_def, Option.some.injEq] at htop
      subst htop
      exact hp
  obtain ⟨s', h1, h2, h3, h4, h5, h6⟩ := match_inv _ hinv
  exact ⟨s', by rw [h1]; rfl, h6, h2, h3, h4, h5⟩

theorem dispatch_edit_or_move (s : State) (c : Nat) (h : Inv s) (hc : edit_or_move c) :
    ∃ s', dispatch s c = Outcome.running s' ∧ Inv s' ∧
      (s'.inputs = s.inputs ∨ ∃ e, s'.inputs = e :: s.inputs) ∧
      s'.items = s.items ∧ s'.num_items = s.num_items := by
  obtain ⟨c3, c7, c11, c12, c13, c27, c31⟩ := hc
  obtain ⟨top, rest, hin⟩ : ∃ top rest, s.inputs = top :: rest := by
    cases hs : s.inputs with
    | nil => exact absurd hs h.1
    | cons a b => exact ⟨a, b, rfl⟩
  have hd : dispatch s c = dispatch_top s top rest c := by simp only [dispatch, hin]
  rw [hd]
  unfold dispatch_top
  obtain ⟨t, h0, htext, hlen⟩ := h.2 top (by simp [hin])
  have hp : s.input_point ≤ t.length := by
    have := h.3 top (by simp [hin]); omega
  have htop : ∀ q, q ≤ top.length → ∀ top' ∈ s.inputs.head?, q ≤ top'.length := by
    intro q hq top' h'
    simp only [hin, List.head?_cons, Option.mem_def, Option.some.injEq] at h'
    subst h'; exact hq
  rw [if_neg (by omega)]
  by_cases h2 : c = 2
  · rw [if_pos h2]
    refine ⟨_, rfl, ?_, Or.inl ?_, ?_, ?_⟩
    · split
      · exact inv_point s h (s.input_point - 1) (htop _ (by omega))
      · exact h
    all_goals split <;> rfl
  rw [if_neg h2]
  by_cases h6 : c = 6
  · rw [if_pos h6]
    refine ⟨_, rfl, ?_, Or.inl ?_, ?_, ?_⟩
    · split
      · exact inv_point s h (s.input_point + 1) (htop _ (by omega))
      · exact h
    all_goals split <;> rfl
  rw [if_neg h6]
  by_cases h1 : c = 1
  · rw [if_pos h1]
    refine ⟨_, rfl, ?_, Or.inl ?_, ?_, ?_⟩
    · split
      · exact inv_point s h 0 (htop _ (by omega))
      · exact h
    all_goals split <;> rfl
  rw [if_neg h1]
  by_cases h5 : c = 5
  · rw [if_pos h5]
    refine ⟨_, rfl, ?_, Or.inl ?_, ?_, ?_⟩
    · split
      · exact inv_point s h top.length (htop _ (by omega))
      · exact h
    all_goals split <;> rfl
  rw [if_neg h5]
  by_cases h14 : c = 14 ∨ c = 18
  · rw [if_pos h14]
    refine ⟨_, rfl, ?_, Or.inl ?_, ?_, ?_⟩
    · split
      · exact inv_index s h _
      · split
        · exact inv_index s h _
        · exact h
    all_goals (split <;> [skip; split]) <;> rfl
  rw [if_neg h14]
  by_cases h16 : c = 16 ∨ c = 19
  · rw [if_pos h16]
    refine ⟨_, rfl, ?_, Or.inl ?_, ?_, ?_⟩
    · split
      · exact inv_index s h _
      · split
        · exact inv_index s h _
        · exact h
    all_goals (split <;> [skip; split]) <;> rfl
  rw [if_neg h16]
  by_cases h22 : c = 22
  · rw [if_pos h22]
    exact ⟨s, rfl, h, Or.inl rfl, rfl, rfl⟩
  rw [if_neg h22, if_neg c11]
  by_cases h21 : c = 21
  · rw [if_pos h21]
    by_cases hp0 : 0 < s.input_point
    · rw [kill_to_start_eq s top t h0 htext hlen hp0 hp]
      obtain ⟨s', e1, e2, e3, -, e5, e6⟩ := edit_step s h (t.drop s.input_point)
        (fun hh => h0 (List.mem_of_mem_drop hh)) 0 (by omega)
      exact ⟨s', e1, e2, Or.inr ⟨_, e3⟩, e5, e6⟩
    · refine ⟨s, by simp [kill_to_start, hp0], h, Or.inl rfl, rfl, rfl⟩
  rw [if_neg h21]
  by_cases h4 : c = 4
  · rw [if_pos h4]
    by_cases hpl : s.input_point < t.length
    · rw [delete_char_eq s top t h0 htext hlen hpl]
      obtain ⟨s', e1, e2, e3, -, e5, e6⟩ := edit_step s h
        (t.take s.input_point ++ t.drop (s.input_point + 1))
        (by
          intro hh
          rcases List.mem_append.1 hh with hh | hh
          · exact h0 (List.mem_of_mem_take hh)
          · exact h0 (List.mem_of_mem_drop hh))
        s.input_point (by simp; omega)
      exact ⟨s', e1, e2, Or.inr ⟨_, e3⟩, e5, e6⟩
    · refine ⟨s, by simp [delete_char, hlen, hpl], h, Or.inl rfl, rfl, rfl⟩
  rw [if_neg h4]
  by_cases h127 : c = 127
  · rw [if_pos h127]
    by_cases hp0 : 0 < s.input_point
    · rw [backspace_eq s top t h0 htext hlen hp0 hp]
      obtain ⟨s', e1, e2, e3, -, e5, e6⟩ := edit_step s h
        (t.take (s.input_point - 1) ++ t.drop s.input_point)
        (by
          intro hh
          rcases List.mem_append.1 hh with hh | hh
          · exact h0 (List.mem_of_mem_take hh)
          · exact h0 (List.mem_of_mem_drop hh))
        (s.input_point - 1) (by simp; omega)
      exact ⟨s', e1, e2, Or.inr ⟨_, e3⟩, e5, e6⟩
    · refine ⟨s, by simp [backspace, hp0], h, Or.inl rfl, rfl, rfl⟩
  rw [if_neg h127, if_neg c31, if_neg c12]
  by_cases h9 : c = 9
  · rw [if_pos h9]
    exact ⟨s, rfl, h, Or.inl rfl, rfl, rfl⟩
  rw [if_neg h9, if_neg c13]
  by_cases hpr : 32 ≤ c ∧ c ≤ 126
  · rw [if_pos hpr, insert_char_eq s top t c h0 htext hlen hp]
    obtain ⟨s', e1, e2, e3, -, e5, e6⟩ := edit_step s h
      (t.take s.input_point ++ c :: t.drop s.input_point)
      (by
        intro hh
        rcases List.mem_append.1 hh with hh | hh
        · exact h0 (List.mem_of_mem_take hh)
        · rcases List.mem_cons.1 hh with hh | hh
          · omega
          · exact h0 (List.mem_of_mem_drop hh))
      (s.input_point + 1) (by simp; omega)
    exact ⟨s', e1, e2, Or.inr ⟨_, e3⟩, e5, e6⟩
  · rw [if_neg hpr]
    exact ⟨s, rfl, h, Or.inl rfl, rfl, rfl⟩

theorem read_input_loop_edits (s : State) (ks : List Nat) (h : Inv s)
    (hks : ∀ c ∈ ks, edit_or_move c) :
    ∃ s' pushed, read_input_loop s false ks = Outcome.running s' ∧ Inv s' ∧
      s'.inputs = pushed ++ s.inputs ∧ s'.items = s.items ∧ s'.num_items = s.num_items := by
  induction ks generalizing s with
  | nil => exact ⟨s, [], rfl, h, rfl, rfl, rfl⟩
  | cons c cs ih =>
    have hc := hks c (by simp)
    obtain ⟨s1, e1, i1, hist, it1, n1⟩ := dispatch_edit_or_move s c h hc
    obtain ⟨s', pushed, e2, i2, hist2, it2, n2⟩ := ih s1 i1 (fun x hx => hks x (by simp [hx]))
    have hne : c ≠ 27 := hc.2.2.2.2.2.1
    have hrun : read_input_loop s false (c :: cs) = Outcome.running s' := by
      simp only [read_input_loop, if_neg hne, e1, e2]
    rcases hist with hh | ⟨e, hh⟩
    · exact ⟨s', pushed, hrun, i2, by rw [hist2, hh], it2.trans it1, n2.trans n1⟩
    · exact ⟨s', pushed ++ [e], hrun, i2, by rw [hist2, hh]; simp, it2.trans it1, n2.trans n1⟩

theorem read_input_loop_append (s : State) (ks1 ks2 : List Nat) (h27 : 27 ∉ ks1) :
    read_input_loop s false (ks1 ++ ks2)
      = match read_input_loop s false ks1 with
        | Outcome.running s1 => read_input_loop s1 false ks2
        | o => o := by
  induction ks1 generalizing s with
  | nil => simp [read_input_loop]
  | cons c cs ih =>
    have hc : c ≠ 27 := by intro hh; apply h27; simp [hh]
    have hcs : 27 ∉ cs := by intro hh; apply h27; simp [hh]
    simp only [List.cons_append, read_input_loop, if_neg hc]
    cases hd : dispatch s c with
    | running s1 => simpa using ih s1 hcs
    | exited out code => rfl
    | undefined => rfl

theorem undo_step (s : State) (h : Inv s) (top prev : input) (older : List input)
    (hin : s.inputs = top :: prev :: older) :
    ∃ s', dispatch s 31 = Outcome.running s' ∧ Inv s' ∧ s'.inputs = prev :: older ∧
      s'.input_point = prev.length ∧ s'.items = s.items ∧ s'.num_items = s.num_items := by
  have hd : dispatch s 31 = Outcome.ofState
      (match_ { s with inputs := prev :: older, input_point := prev.length }) := by
    simp [dispatch, hin, dispatch_top, undo]
  have hinv : Inv { s with inputs := prev :: older, input_point := prev.length } := by
    refine ⟨by simp, ?_, ?_, h.4, h.5, h.6⟩
    · intro inp hinp
      exact h.2 inp (by rw [hin]; exact List.mem_cons_of_mem _ hinp)
    · intro t ht
      simp only [List.head?_cons, Option.mem_def, Option.some.injEq] at ht
      subst ht; exact le_refl _
  obtain ⟨s', h1, h2, h3, h4, h5, h6⟩ := match_inv _ hinv
  exact ⟨s', by rw [hd, h1]; rfl, h6, h2, h3, h4, h5⟩

theorem undo_many (pushed base : List input) (hb : base ≠ []) (s : State) (h : Inv s)
    (hin : s.inputs = pushed ++ base) :
    ∃ s', read_input_loop s false (List.replicate pushed.length 31) = Outcome.running s' ∧
      Inv s' ∧ s'.inputs = base ∧ s'.items = s.items ∧ s'.num_items = s.num_items ∧
      (pushed ≠ [] → ∀ top ∈ base.head?, s'.input_point = top.length) ∧
      (pushed = [] → s'.input_point = s.input_point) := by
  induction pushed generalizing s with
  | nil => exact ⟨s, rfl, h, by simpa using hin, rfl, rfl, by simp, by simp⟩
  | cons e es ih =>
    obtain ⟨prev, older, hpo⟩ : ∃ prev older, es ++ base = prev :: older := by
      cases hx : es ++ base with
      | nil => simp at hx; exact absurd hx.2 hb
      | cons a b => exact ⟨a, b, rfl⟩
    obtain ⟨s1, e1, i1, hist1, pt1, it1, n1⟩ := undo_step s h e prev older (by rw [hin]; simp [hpo])
    obtain ⟨s', e2, i2, hist2, it2, n2, pt2, pt2'⟩ := ih s1 i1 (by rw [hist1, hpo])
    refine ⟨s', ?_, i2, hist2, it2.trans it1, n2.trans n1, ?_, by simp⟩
    · simp only [List.length_cons, List.replicate_succ, read_input_loop]
      rw [if_neg (by decide), e1]
      exact e2
    · intro _ top htop
      by_cases hes : es = []
      · subst hes
        rw [pt2' rfl, pt1]
        simp only [List.nil_append] at hpo
        rw [hpo] at htop
        simp only [List.head?_cons, Option.mem_def, Option.some.injEq] at htop
        rw [htop]
      · exact pt2 hes top htop

theorem inv_text (s : State) (h : Inv s) :
    ∃ t, s.text = some t ∧ ∀ top ∈ s.inputs.head?, top.length = t.length := by
  cases hin : s.inputs with
  | nil => exact absurd hin h.1
  | cons top rest =>
    obtain ⟨t, h0, htext, hlen⟩ := h.2 top (by simp [hin])
    refine ⟨t, by simp [State.text, hin, htext, c_str_cbuf t h0], ?_⟩
    intro top' h'
    simp only [List.head?_cons, Option.mem_def, Option.some.injEq] at h'
    subst h'; exact hlen

/-- C4 (counterexample). From the query state (`ab`, cursor 1) one insert of
`x` gives (`axb`, cursor 2), and one undo then gives (`ab`, cursor 2), which is
not the initial query state. -/
theorem undo_after_insert_moves_cursor_to_end :
    query_ab_at_1.state.map State.query = some (some (cstr "ab"), 1) ∧
    (query_ab_at_1.next [120]).state.map State.query = some (some (cstr "axb"), 2) ∧
    ((query_ab_at_1.next [120]).next [31]).state.map State.query = some (some (cstr "ab"), 2) ∧
    ((query_ab_at_1.next [120]).next [31]).state.map State.query
      ≠ query_ab_at_1.state.map State.query := by
  decide

/-- C4 (amended). From a well-formed state `s0`, let `s1` be the state after
the keystrokes `ks1` and `s2` the state after the further keystrokes `ks2`,
all of them edits (insert, backspace, delete, kill-to-start) or cursor moves.
The edits of `ks2` that took effect pushed the entries `pushed` on the undo
chain of `s1`; as many undo keystrokes (C-_) as there are such entries lead to
a state whose undo chain, and so whose text, is that of `s1`, with the edit
cursor at the end of that text (when at least one edit is undone). -/
theorem undo_restores_text_cursor_at_end (s0 : State) (ks1 ks2 : List Nat) (h : Inv s0)
    (h1 : ∀ c ∈ ks1, edit_or_move c) (h2 : ∀ c ∈ ks2, edit_or_move c) :
    ∃ s1 s2 s3 pushed t,
      read_input s0 ks1 = Outcome.running s1 ∧
      read_input s0 (ks1 ++ ks2) = Outcome.running s2 ∧
      s2.inputs = pushed ++ s1.inputs ∧
      read_input s2 (List.replicate pushed.length 31) = Outcome.running s3 ∧
      s3.inputs = s1.inputs ∧ s1.text = some t ∧ s3.text = some t ∧
      (pushed ≠ [] → s3.input_point = t.length) ∧
      (pushed = [] → s3.input_point = s2.input_point) := by
  obtain ⟨s1, p1, e1, i1, -, -, -⟩ := read_input_loop_edits s0 ks1 h h1
  obtain ⟨s2, pushed, e2, i2, hist2, -, -⟩ := read_input_loop_edits s1 ks2 i1 h2
  obtain ⟨s3, e3, i3, hist3, -, -, pt3, pt3'⟩ := undo_many pushed s1.inputs i1.1 s2 i2 hist2
  obtain ⟨t, ht, hlen⟩ := inv_text s1 i1
  have h27 : 27 ∉ ks1 := fun hh => (h1 27 hh).2.2.2.2.2.1 rfl
  refine ⟨s1, s2, s3, pushed, t, e1, ?_, hist2, e3, hist3, ht, ?_, ?_, pt3'⟩
  · simp only [read_input, read_input_loop_append s0 ks1 ks2 h27, e1, e2]
  · simp only [State.text, hist3] at ht ⊢
    exact ht
  · intro hp
    cases hin : s1.inputs with
    | nil => exact absurd hin i1.1
    | cons top rest =>
      rw [pt3 hp top (by simp [hin]), hlen top (by simp [hin])]

theorem undo_restores_text_cursor_at_end_witness :
    ∃ s1 s2 s3 pushed t,
      read_input { inputs := [input.of (cstr "ab")], input_point := 1 } [2, 120]
        = Outcome.running s1 ∧
      read_input { inputs := [input.of (cstr "ab")], input_point := 1 } ([2, 120] ++ [6, 121, 127])
        = Outcome.running s2 ∧
      s2.inputs = pushed ++ s1.inputs ∧
      read_input s2 (List.replicate pushed.length 31) = Outcome.running s3 ∧
      s3.inputs = s1.inputs ∧ s1.text = some t ∧ s3.text = some t ∧
      (pushed ≠ [] → s3.input_point = t.length) ∧
      (pushed = [] → s3.input_point = s2.input_point) :=
  undo_restores_text_cursor_at_end { inputs := [input.of (cstr "ab")], input_point := 1 }
    [2, 120] [6, 121, 127]
    ⟨by simp, by
        intro inp hinp
        simp only [List.mem_singleton] at hinp
        subst hinp
        exact ⟨cstr "ab", by decide, rfl, rfl⟩,
      by
        intro top htop
        simp only [List.head?_cons, Option.mem_def, Option.some.injEq] at htop
        subst htop
        decide,
      by decide, by decide, Or.inl rfl⟩
    (by simp [edit_or_move]) (by simp [edit_or_move])

theorem split_words_space (f : Nat) (s : List Nat) :
    split_words (f + 1) (32 :: s) = split_words (f + 1) s := by
  simp [split_words, strtok]

theorem split_words_word (f c : Nat) (s : List Nat) (hc : c ≠ 32) :
    split_words (f + 1) (c :: s)
      = (c :: s.takeWhile (fun x => x != 32))
          :: split_words f ((s.dropWhile (fun x => x != 32)).drop 1) := by
  simp [split_words, strtok, hc, List.dropWhile_cons, List.takeWhile_cons]

theorem split_words_fuel (n : Nat) (s : List Nat) (f f' : Nat) (hn : s.length ≤ n)
    (hf : s.length < f) (hf' : s.length < f') : split_words f s = split_words f' s := by
  induction n generalizing s f f' with
  | zero =>
    have : s = [] := List.length_eq_zero.1 (by omega)
    subst this
    obtain ⟨a, rfl⟩ : ∃ a, f = a + 1 := ⟨f - 1, by omega⟩
    obtain ⟨b, rfl⟩ : ∃ b, f' = b + 1 := ⟨f' - 1, by omega⟩
    simp [split_words, strtok]
  | succ n ih =>
    obtain ⟨a, rfl⟩ : ∃ a, f = a + 1 := ⟨f - 1, by omega⟩
    obtain ⟨b, rfl⟩ : ∃ b, f' = b + 1 := ⟨f' - 1, by omega⟩
    cases s with
    | nil => simp [split_words, strtok]
    | cons c s =>
      simp only [List.length_cons] at hn hf hf'
      by_cases hc : c = 32
      · subst hc
        rw [split_words_space, split_words_space]
        exact ih s _ _ (by omega) (by omega) (by omega)
      · rw [split_words_word _ _ _ hc, split_words_word _ _ _ hc]
        have hl : ((s.dropWhile (fun x => x != 32)).drop 1).length ≤ s.length := by
          have := (List.dropWhile_sublist (fun x => x != 32) (l := s)).length_le
          simp only [List.length_drop]; omega
        rw [ih _ a b (by omega) (by omega) (by omega)]

theorem takeWhile_append_stop (p : Nat → Bool) (l r : List Nat) (d : Nat) (hd : p d = false) :
    (l ++ d :: r).takeWhile p = l.takeWhile p := by
  induction l with
  | nil => simp [List.takeWhile_cons, hd]
  | cons a l ih =>
    simp only [List.cons_append, List.takeWhile_cons]
    split
    · rw [ih]
    · rfl

theorem dropWhile_append_stop (p : Nat → Bool) (l r : List Nat) (d : Nat) (hd : p d = false) :
    ((l ++ d :: r).dropWhile p).drop 1
      = if l.dropWhile p = [] then r else (l.dropWhile p).drop 1 ++ d :: r := by
  induction l with
  | nil => simp [List.dropWhile_cons, hd]
  | cons a l ih =>
    simp only [List.cons_append, List.dropWhile_cons]
    split
    · exact ih
    · simp

theorem split_words_append (n : Nat) (Q tok : List Nat) (f fq ft : Nat) (hn : Q.length ≤ n)
    (hf : Q.length + tok.length + 1 < f) (hfq : Q.length < fq) (hft : tok.length < ft) :
    split_words f (Q ++ 32 :: tok) = split_words fq Q ++ split_words ft tok := by
  induction n generalizing Q f fq with
  | zero =>
    have : Q = [] := List.length_eq_zero.1 (by omega)
    subst this
    obtain ⟨a, rfl⟩ : ∃ a, f = a + 1 := ⟨f - 1, by omega⟩
    obtain ⟨b, rfl⟩ : ∃ b, fq = b + 1 := ⟨fq - 1, by omega⟩
    simp only [List.nil_append, split_words_space]
    rw [split_words_fuel tok.length tok (a + 1) ft (le_refl _) (by simp at hf; omega) hft]
    simp [split_words, strtok]
  | succ n ih =>
    obtain ⟨a, rfl⟩ : ∃ a, f = a + 1 := ⟨f - 1, by omega⟩
    obtain ⟨b, rfl⟩ : ∃ b, fq = b + 1 := ⟨fq - 1, by omega⟩
    cases Q with
    | nil =>
      simp only [List.nil_append, split_words_space]
      rw [split_words_fuel tok.length tok (a + 1) ft (le_refl _) (by simp at hf; omega) hft]
      simp [split_words, strtok]
    | cons c Q =>
      simp only [List.length_cons] at hn hf hfq
      by_cases hc : c = 32
      · subst hc
        rw [List.cons_append, split_words_space, split_words_space]
        exact ih Q _ _ (by omega) (by omega) (by omega)
      · rw [List.cons_append, split_words_word _ _ _ hc, split_words_word _ _ _ hc,
          takeWhile_append_stop _ _ _ _ (by simp), dropWhile_append_stop _ _ _ _ (by simp)]
        have hl : ((Q.dropWhile (fun x => x != 32)).drop 1).length ≤ Q.length := by
          have := (List.dropWhile_sublist (fun x => x != 32) (l := Q)).length_le
          simp only [List.length_drop]; omega
        by_cases hB : Q.dropWhile (fun x => x != 32) = []
        · rw [if_pos hB, hB]
          simp only [List.drop_nil, List.cons_append, List.cons.injEq, true_and]
          rw [split_words_fuel tok.length tok a ft (le_refl _) (by omega) hft]
          cases b <;> simp [split_words, strtok]
        · rw [if_neg hB]
          simp only [List.cons_append, List.cons.injEq, true_and]
          exact ih _ _ _ (by omega) (by omega) (by omega)

theorem query_words_append (Q tok : List Nat) :
    query_words (Q ++ 32 :: tok) = query_words Q ++ query_words tok := by
  unfold query_words
  exact split_words_append Q.length Q tok _ _ _ (le_refl _) (by simp) (by omega) (by omega)

theorem query_words_token (tok : List Nat) (hne : tok ≠ []) (hsp : 32 ∉ tok) :
    query_words tok = [tok] := by
  cases tok with
  | nil => exact absurd rfl hne
  | cons c r =>
    have hc : c ≠ 32 := by intro h; apply hsp; simp [h]
    have hr : ∀ x ∈ r, (x != 32) = true := by
      intro x hx
      have : x ≠ 32 := by intro h; apply hsp; simp [← h, hx]
      simpa using this
    unfold query_words
    rw [List.length_cons, split_words_word _ _ _ hc, List.takeWhile_eq_self_iff.2 hr,
      List.dropWhile_eq_nil_iff.2 hr]
    cases r <;> simp [split_words, strtok]

theorem scan_words_append (fold : Bool) (e : List Nat) (ws ws' : List (List Nat))
    (h : scan_words fold e (ws ++ ws') = true) : scan_words fold e ws = true := by
  induction ws generalizing e with
  | nil => simp [scan_words]
  | cons w ws ih =>
    simp only [List.cons_append, scan_words] at h ⊢
    cases hq : strstr fold e w with
    | none => simp [hq] at h
    | some q =>
      simp only [hq] at h ⊢
      exact ih _ h

/-- C10. Word-match monotonicity: when `tok` is a non-empty token (no space in
it) and the query `Q` is extended to `Q`, a space and `tok`, the words of the
new query are those of `Q` followed by `tok`, and the indices `match_words`
returns for the new query form a sublist (same relative order) of those it
returns for `Q`. -/
theorem match_words_monotone (fold : Bool) (Q tok : List Nat) (items : List (List Nat))
    (m0 m1 : List Nat) (k0 k1 : Nat) (hQ : 0 ∉ Q) (htok : 0 ∉ tok) (hne : tok ≠ [])
    (hsp : 32 ∉ tok) :
    query_words (Q ++ 32 :: tok) = query_words Q ++ [tok] ∧
    ∃ m k m' k',
      match_words fold (input.of Q) items items.length m0 k0 = some (0, m, k) ∧
      match_words fold (input.of (Q ++ 32 :: tok)) items items.length m1 k1 = some (0, m', k') ∧
      (m'.take k').Sublist (m.take k) := by
  have hwords : query_words (Q ++ 32 :: tok) = query_words Q ++ [tok] := by
    rw [query_words_append, query_words_token tok hne hsp]
  refine ⟨hwords, ?_⟩
  have hQ' : 0 ∉ Q ++ 32 :: tok := by
    intro h
    rcases List.mem_append.1 h with h | h
    · exact hQ h
    · rcases List.mem_cons.1 h with h | h
      · omega
      · exact htok h
  have hw' : query_words (Q ++ 32 :: tok) ≠ [] := by rw [hwords]; simp
  obtain ⟨m', k', e', -, r'⟩ := match_words_some fold (Q ++ 32 :: tok) (Q ++ 32 :: tok).length
    items items.length m1 k1 hQ' hw' (le_refl _)
  by_cases hw : query_words Q = []
  · obtain ⟨e, -, r⟩ := match_words_none fold Q Q.length items items.length m0 k0 hQ hw
    refine ⟨_, _, m', k', e, e', ?_⟩
    rw [r, r']
    exact List.filter_sublist _
  · obtain ⟨m, k, e, -, r⟩ := match_words_some fold Q Q.length items items.length m0 k0 hQ hw
      (le_refl _)
    refine ⟨m, k, m', k', e, e', ?_⟩
    rw [r, r', hwords]
    apply List.monotone_filter_right
    intro j hj
    exact scan_words_append fold _ _ _ hj

theorem match_words_monotone_witness :
    query_words (cstr "ap" ++ 32 :: cstr "le") = query_words (cstr "ap") ++ [cstr "le"] ∧
    ∃ m k m' k',
      match_words true (input.of (cstr "ap")) [cstr "apple", cstr "grape", cstr "lemon ape"]
        [cstr "apple", cstr "grape", cstr "lemon ape"].length [] 0 = some (0, m, k) ∧
      match_words true (input.of (cstr "ap" ++ 32 :: cstr "le"))
        [cstr "apple", cstr "grape", cstr "lemon ape"]
        [cstr "apple", cstr "grape", cstr "lemon ape"].length [] 0 = some (0, m', k') ∧
      (m'.take k').Sublist (m.take k) :=
  match_words_monotone true (cstr "ap") (cstr "le")
    [cstr "apple", cstr "grape", cstr "lemon ape"] [] [] 0 0
    (by decide) (by decide) (by decide) (by decide)

theorem store_eq_set {α : Type} (a : List α) (k : Nat) (v : α) (hk : k < a.length) :
    store a k v = a.set k v := by
  unfold store
  rw [List.set_eq_take_append_cons_drop, if_pos hk]

theorem restrict_loop_spec (ms : List Nat) (n : Nat) (orig : List (List Nat))
    (hn : n ≤ orig.length) (fuel j i k : Nat) (items : List (List Nat))
    (hj : j + fuel ≤ ms.length)
    (hsorted : ((ms.drop j).take fuel).Pairwise (fun a b => a < b))
    (hrange : ∀ m ∈ (ms.drop j).take fuel, i ≤ m ∧ m < n)
    (hlen : items.length = orig.length)
    (hsame : ∀ x, i ≤ x → items[x]? = orig[x]?) (hk : k ≤ i) :
    ∃ items', restrict_loop ms n fuel j i k items = some (items', k + fuel) ∧
      items'.length = orig.length ∧
      items'.take (k + fuel)
        = items.take k ++ ((ms.drop j).take fuel).map (fun m => orig.getD m []) := by
  induction fuel generalizing j i k items with
  | zero => exact ⟨items, by simp [restrict_loop], hlen, by simp⟩
  | succ f ih =>
    have hlt : j < ms.length := by omega
    have hd : ms.drop j = ms[j] :: ms.drop (j + 1) := List.drop_eq_getElem_cons hlt
    rw [hd, List.take_succ_cons] at hsorted hrange
    rw [hd, List.take_succ_cons]
    obtain ⟨him, hmn⟩ := hrange ms[j] (by simp)
    have hmo : ms[j] < orig.length := by omega
    have hget : items[ms[j]]? = some orig[ms[j]] := by
      rw [hsame _ him, List.getElem?_eq_getElem hmo]
    have hkl : k < items.length := by omega
    obtain ⟨items', e, l', t'⟩ := ih (j + 1) (ms[j] + 1) (k + 1) (store items k orig[ms[j]])
      (by omega) (List.Pairwise.of_cons hsorted)
      (by
        intro m hm
        have h1 := List.rel_of_pairwise_cons hsorted hm
        have h2 := hrange m (List.mem_cons_of_mem _ hm)
        omega)
      (by rw [store_eq_set _ _ _ hkl, List.length_set]; exact hlen)
      (by
        intro x hx
        rw [store_eq_set _ _ _ hkl, List.getElem?_set_ne (by omega)]
        exact hsame x (by omega))
      (by omega)
    refine ⟨items', ?_, l', ?_⟩
    · simp only [restrict_loop, List.getElem?_eq_getElem hlt, him, hmn, and_self, if_true, hget]
      rw [e]; congr 2; omega
    · have e1 : k + (f + 1) = k + 1 + f := by omega
      rw [e1, t', store_take_succ _ _ _ (by omega)]
      simp [List.getD_eq_getElem?_getD, List.getElem?_eq_getElem hmo]

theorem read_input_single (s : State) (c : Nat) (hc : c ≠ 27) :
    read_input s [c] = dispatch s c := by
  simp only [read_input, read_input_loop, if_neg hc]
  cases dispatch s c <;> rfl

/-- C5. Restrict contract: in a state with `0 < num_matches < num_items` whose
match result is a strictly increasing list of item indices, under the word
algorithm, the restrict keystroke (C-l) leaves exactly the matched items, in
their order, as the item collection, so that the new item count is the old
match count; the undo chain is the single entry of the empty text, with the
edit cursor at 0; and the recomputed match result is `[0, ..., num_items - 1]`
without an error. -/
theorem restrict_contract (s : State) (h1 : 0 < s.num_matches)
    (h2 : s.num_matches < s.num_items) (hsorted : s.result.Pairwise (fun a b => a < b))
    (hidx : ∀ m ∈ s.result, m < s.num_items) (hitems : s.num_items ≤ s.items.length)
    (hmat : s.num_matches ≤ s.matches_.length) (hin : s.inputs ≠ [])
    (halg : s.algorithm = match_words) :
    ∃ s', read_input s [12] = Outcome.running s' ∧
      s'.live_items = s.result.map (fun m => s.items.getD m []) ∧
      s'.num_items = s.num_matches ∧
      s'.inputs = [input.of []] ∧ s'.text = some [] ∧ s'.input_point = 0 ∧
      s'.result = List.range s'.num_items ∧ s'.match_err = false := by
  obtain ⟨top, rest, hin'⟩ : ∃ top rest, s.inputs = top :: rest := by
    cases hs : s.inputs with
    | nil => exact absurd hs hin
    | cons a b => exact ⟨a, b, rfl⟩
  have hres : (s.matches_.drop 0).take s.num_matches = s.result := rfl
  obtain ⟨items', e, l', t'⟩ := restrict_loop_spec s.matches_ s.num_items s.items hitems
    s.num_matches 0 0 0 s.items (by omega) (by rw [hres]; exact hsorted)
    (by rw [hres]; intro m hm; exact ⟨Nat.zero_le _, hidx m hm⟩) rfl (fun _ _ => rfl)
    (le_refl _)
  rw [Nat.zero_add] at e t'
  rw [hres, List.take_zero, List.nil_append] at t'
  have hk : s.num_matches ≤ items'.length := by omega
  obtain ⟨item, hsel⟩ := selected_item_some
    { s with items := items', num_items := s.num_matches, inputs := [input.of []],
             input_point := 0, match_index := 0 } hmat
  obtain ⟨a1, a2, a3⟩ := match_words_none s.case_fold [] 0 items' s.num_matches s.matches_
    s.num_matches (by simp) (by decide)
  have hm := match_eq
    { s with items := items', num_items := s.num_matches, inputs := [input.of []],
             input_point := 0, match_index := 0 } (input.of []) [] rfl item hsel 0 _ _
    (by simpa [halg, input.of] using a1) a2
  have hrun : read_input s [12] = Outcome.ofState (match_
      { s with items := items', num_items := s.num_matches, inputs := [input.of []],
               input_point := 0, match_index := 0 }) := by
    have hc : s.num_matches > 0 ∧ s.num_matches < s.num_items := ⟨h1, h2⟩
    rw [read_input_single s 12 (by decide)]
    simp only [dispatch, hin', dispatch_top, restrict]
    simp [hc, e, input.of, cbuf]
  rw [hrun, hm]
  refine ⟨_, rfl, ?_, rfl, rfl, ?_, rfl, ?_, rfl⟩
  · simpa [State.live_items] using t'
  · simp [State.text, input.of, cbuf, c_str]
  · simpa [State.result] using a3

theorem restrict_contract_witness :
    ∃ s', read_input
        { items := [cstr "z", cstr "a1", cstr "a2"], num_items := 3, matches_ := [1, 2],
          num_matches := 2, inputs := [input.of (cstr "a"), input.of []], input_point := 1 } [12]
        = Outcome.running s' ∧
      s'.live_items = (State.result
        { items := [cstr "z", cstr "a1", cstr "a2"], num_items := 3, matches_ := [1, 2],
          num_matches := 2, inputs := [input.of (cstr "a"), input.of []],
          input_point := 1 }).map (fun m => [cstr "z", cstr "a1", cstr "a2"].getD m []) ∧
      s'.num_items = 2 ∧
      s'.inputs = [input.of []] ∧ s'.text = some [] ∧ s'.input_point = 0 ∧
      s'.result = List.range s'.num_items ∧ s'.match_err = false :=
  restrict_contract
    { items := [cstr "z", cstr "a1", cstr "a2"], num_items := 3, matches_ := [1, 2],
      num_matches := 2, inputs := [input.of (cstr "a"), input.of []], input_point := 1 }
    (by decide) (by decide) (by decide) (by decide) (by decide) (by decide) (by decide) rfl

/-- C6. After `a` has been typed the matches are `a1`, `a2` (indices 1, 2) with
`a1` selected; the restrict keystroke leaves the items `a1`, `a2`, all of them
matching, and the selection cursor at 1, on `a2`: `match` looks the stale
index `matches[0] = 1` up in the new result. -/
theorem restrict_leaves_cursor_on_second_item :
    (restrict_example.next [97]).state.map State.result = some [1, 2] ∧
    (restrict_example.next [97]).state.map State.num_items = some 3 ∧
    (restrict_example.next [97]).state.map State.match_index = some 0 ∧
    ((restrict_example.next [97]).next [12]).state.map State.live_items
      = some [cstr "a1", cstr "a2"] ∧
    ((restrict_example.next [97]).next [12]).state.map State.result = some [0, 1] ∧
    ((restrict_example.next [97]).next [12]).state.map State.match_index = some 1 ∧
    ((restrict_example.next [97]).next [12]).state.bind State.selected = some (cstr "a2") := by
  decide

/-- C7. With the item `50%% off` selected, RET writes `50% off` and a newline:
the item text is used as the format of `printf`.  With the item `100%`
selected the format ends in an incomplete conversion and the output is not
defined.  Without a selected match nothing is written and the exit code is 1. -/
theorem accept_uses_item_as_format :
    percent_example.state.bind State.selected = some (cstr "50%% off") ∧
    (percent_example.next [13]).exit = some (cstr "50% off" ++ [10], 0) ∧
    (percent_example.next [13]).exit ≠ some (cstr "50%% off" ++ [10], 0) ∧
    (percent_example.next [14]).state.bind State.selected = some (cstr "100%") ∧
    ((percent_example.next [14]).next [13]).is_undefined = true ∧
    ((percent_example.next [122]).next [13]).exit = some ([], 1) := by
  decide

/-- C9. With no match (`num_matches = 0`) the selection cursor is 0 after the
recompute, but "next" (C-n) moves it to 1 and "last" (alt->) to `SIZE_MAX`:
`num_matches - 1` wraps. -/
theorem cursor_leaves_range_without_matches :
    (scenario_A.next [122]).state.map State.num_matches = some 0 ∧
    (scenario_A.next [122]).state.map State.match_index = some 0 ∧
    ((scenario_A.next [122]).next [14]).state.map State.num_matches = some 0 ∧
    ((scenario_A.next [122]).next [14]).state.map State.match_index = some 1 ∧
    ((scenario_A.next [122]).next [27, 62]).state.map State.match_index
      = some (2 ^ 64 - 1) ∧
    ((Outcome.ofState (startup match_words [])).next [14]).state.map State.num_matches
      = some 0 ∧
    ((Outcome.ofState (startup match_words [])).next [14]).state.map State.match_index
      = some 1 := by
  decide

theorem int_round_trip (v : Nat) (hv : v < 2 ^ 31) : size_of_int (int_of_size v) = v := by
  unfold size_of_int int_of_size SIZE_MOD
  have h1 : (v + 2 ^ 31) % 2 ^ 32 = v + 2 ^ 31 := Nat.mod_eq_of_lt (by omega)
  rw [h1]
  have h2 : (((v + 2 ^ 31 : Nat) : Int) - (2 ^ 31 : Int)) = (v : Int) := by
    push_cast; ring
  rw [h2]
  have h3 : ((v : Int) % ((2 ^ 64 : Nat) : Int)) = (v : Int) := by
    apply Int.emod_eq_of_lt (by omega)
    have : v < 2 ^ 64 := by omega
    exact_mod_cast this
  rw [h3]
  simp

theorem match_fields (s : State) (inp : input) (rest : List input) (hin : s.inputs = inp :: rest)
    (item : Int) (hsel : selected_item s = some item) (err : Nat) (m : List Nat) (k : Nat)
    (halg : s.algorithm s.case_fold inp s.items s.num_items s.matches_ s.num_matches
      = some (err, m, k))
    (hk : k ≤ m.length) :
    ∃ s', match_ s = some s' ∧ s'.matches_ = m ∧ s'.num_matches = k ∧
      s'.match_index = (if size_of_int item ∈ m.take k
        then (m.take k).indexOf (size_of_int item) else 0) ∧
      s'.match_err = (err != 0) ∧ s'.items = s.items ∧ s'.num_items = s.num_items ∧
      s'.inputs = s.inputs ∧ s'.input_point = s.input_point ∧ s'.algorithm = s.algorithm ∧
      s'.case_fold = s.case_fold :=
  ⟨_, match_eq s inp rest hin item hsel err m k halg hk, rfl, rfl, rfl, rfl, rfl, rfl, rfl, rfl,
    rfl, rfl⟩

/-- Selection persistence below the `int` range.  Let the algorithm return the
result `m[0..k)`.  When a match with item index `v < 2^31` was selected, the
cursor after `match` is the position of `v` in the new result if `v` occurs
there and 0 otherwise; when nothing was selected the cursor is 0. -/
theorem match_selection_persists (s : State) (inp : input) (rest : List input)
    (hin : s.inputs = inp :: rest) (hm : s.num_matches ≤ s.matches_.length)
    (err : Nat) (m : List Nat) (k : Nat)
    (halg : s.algorithm s.case_fold inp s.items s.num_items s.matches_ s.num_matches
      = some (err, m, k))
    (hk : k ≤ m.length) :
    ∃ s', match_ s = some s' ∧ s'.result = m.take k ∧
      (∀ v, s.match_index < s.num_matches → s.matches_[s.match_index]? = some v → v < 2 ^ 31 →
        (v ∈ m.take k → s'.match_index = (m.take k).indexOf v ∧
          s'.result[s'.match_index]? = some v) ∧
        (v ∉ m.take k → s'.match_index = 0)) ∧
      (¬ s.match_index < s.num_matches → (∀ x ∈ m.take k, x < 2 ^ 64 - 1) →
        s'.match_index = 0) := by
  obtain ⟨item, hsel⟩ := selected_item_some s hm
  obtain ⟨s', e, f1, f2, f3, -⟩ := match_fields s inp rest hin item hsel err m k halg hk
  have hres : s'.result = m.take k := by simp [State.result, f1, f2]
  refine ⟨s', e, hres, ?_, ?_⟩
  · intro v hlt hv hv31
    have hitem : item = int_of_size v := by
      simp only [selected_item, hlt, if_true, hv] at hsel
      exact (Option.some.inj hsel).symm
    have hval : size_of_int item = v := by rw [hitem]; exact int_round_trip v hv31
    rw [hval] at f3
    constructor
    · intro hmem
      rw [if_pos hmem] at f3
      refine ⟨f3, ?_⟩
      rw [hres, f3, List.getElem?_eq_getElem (List.indexOf_lt_length.2 hmem)]
      simp
    · intro hmem
      rw [if_neg hmem] at f3
      exact f3
  · intro hlt hx
    have hitem : item = -1 := by
      simp only [selected_item, hlt, if_false] at hsel
      exact (Option.some.inj hsel).symm
    have hv : size_of_int item = 2 ^ 64 - 1 := by rw [hitem]; decide
    have hnot : size_of_int item ∉ m.take k := by
      intro hmem
      have := hx _ hmem
      omega
    rw [if_neg hnot] at f3
    exact f3

theorem foldl_add_item (new : List (List Nat)) (s : State) (hs : s.num_items ≤ s.items.length) :
    (new.foldl add_item s).num_items = s.num_items + new.length ∧
    (new.foldl add_item s).num_items ≤ (new.foldl add_item s).items.length ∧
    (new.foldl add_item s).items.take (new.foldl add_item s).num_items
      = s.items.take s.num_items ++ new ∧
    (new.foldl add_item s).inputs = s.inputs ∧
    (new.foldl add_item s).algorithm = s.algorithm ∧
    (new.foldl add_item s).case_fold = s.case_fold ∧
    (new.foldl add_item s).matches_ = s.matches_ ∧
    (new.foldl add_item s).num_matches = s.num_matches ∧
    (new.foldl add_item s).match_index = s.match_index ∧
    (new.foldl add_item s).input_point = s.input_point := by
  induction new generalizing s with
  | nil => simp [hs]
  | cons a new ih =>
    obtain ⟨h1, h2, h3, h4, h5, h6, h7, h8, h9, h10⟩ := ih (add_item s a)
      (by exact store_length s.items s.num_items a hs)
    simp only [List.foldl_cons]
    refine ⟨?_, h2, ?_, h4, h5, h6, h7, h8, h9, h10⟩
    · rw [h1]; simp [add_item]; omega
    · rw [h3]
      have : (add_item s a).items.take (add_item s a).num_items = s.items.take s.num_items ++ [a] :=
        store_take_succ s.items s.num_items a hs
      rw [this]; simp

theorem getElem?_of_take_eq {α : Type} (l r : List α) (n j : Nat) (h : l.take n = r)
    (hj : j < n) : l[j]? = r[j]? := by
  rw [← h, List.getElem?_take_of_lt hj]

theorem many_lines_loaded (a : Algorithm) (N : Nat) (s00 : State)
    (hstart : startup a [] = some s00)
    (h00 : s00.inputs = [input.of []] ∧ s00.algorithm = a ∧ s00.case_fold = true ∧
      s00.num_items = 0 ∧ s00.num_matches = 0 ∧ s00.match_index = 0 ∧ s00.input_point = 0)
    (hN : N < 2 ^ 64 - 1)
    (halg : ∀ items : List (List Nat), N ≤ items.length → items.take N = List.replicate N [97] →
      ∃ m, a true (input.of []) items N s00.matches_ 0 = some (0, m, N) ∧ N ≤ m.length ∧
        m.take N = List.range N) :
    ∃ s0, (startup a []).bind (fun s => load_items s (List.replicate N [97])) = some s0 ∧
      s0.inputs = [input.of []] ∧ s0.algorithm = a ∧ s0.case_fold = true ∧
      s0.num_items = N ∧ N ≤ s0.items.length ∧ s0.items.take N = List.replicate N [97] ∧
      s0.num_matches = N ∧ N ≤ s0.matches_.length ∧ s0.matches_.take N = List.range N ∧
      s0.match_index = 0 ∧ s0.input_point = 0 ∧ s0.match_err = false := by
  obtain ⟨i1, i2, i3, i4, i5, i6, i7⟩ := h00
  obtain ⟨f1, f2, f3, f4, f5, f6, f7, f8, f9, f10⟩ :=
    foldl_add_item (List.replicate N [97]) s00 (by omega)
  generalize hs : (List.replicate N [97]).foldl add_item s00 = s at f1 f2 f3 f4 f5 f6 f7 f8 f9 f10
  simp only [i4, List.length_replicate, Nat.zero_add, List.take_zero, List.nil_append] at f1 f3
  rw [f1] at f2 f3
  have hsel : selected_item s = some (-1) := by
    simp [selected_item, f9, f8, i5, i6]
  obtain ⟨m, hal0, hk, hm⟩ := halg s.items f2 f3
  have hal : s.algorithm s.case_fold (input.of []) s.items s.num_items s.matches_ s.num_matches
      = some (0, m, N) := by
    rw [f5, f6, f7, f8, f1, i2, i3, i5]
    exact hal0
  obtain ⟨s0, e, g1, g2, g3, g4, g5, g6, g7, g8, g9, g10⟩ :=
    match_fields s (input.of []) [] (by rw [f4, i1]) (-1) hsel 0 m N hal hk
  have hv : size_of_int (-1) = 2 ^ 64 - 1 := by decide
  have hnot : size_of_int (-1) ∉ m.take N := by
    rw [hm, List.mem_range, hv]; omega
  rw [if_neg hnot] at g3
  refine ⟨s0, ?_, by rw [g7, f4, i1], by rw [g9, f5, i2], by rw [g10, f6, i3], by rw [g6, f1],
    by rw [g5]; exact f2, by rw [g5]; exact f3, g2, by rw [g1]; exact hk, by rw [g1]; exact hm,
    g3, by rw [g8, f10, i7], by rw [g4]; rfl⟩
  rw [hstart]
  simp only [Option.some_bind, load_items, hs]
  exact e

theorem select_last (s0 : State) (N : Nat) (hN : 1 < N) (hn : s0.num_matches = N)
    (hi : s0.match_index = 0) :
    read_input s0 [27, 62] = Outcome.running { s0 with match_index := N - 1 } := by
  have h1 : size_sub N 1 = N - 1 := size_sub_of_le N 1 (by omega)
  have h2 : (0 : Nat) < N - 1 := by omega
  simp [read_input, read_input_loop, dispatch_esc, hn, hi, h1, h2]

theorem type_a_on_empty_query (s1 : State) (hin : s1.inputs = [input.of []])
    (hp : s1.input_point = 0) :
    read_input s1 [97] = Outcome.ofState (match_ { s1 with
      inputs := input.of [97] :: s1.inputs, input_point := 1 }) := by
  rw [read_input_single s1 97 (by decide)]
  have hd : dispatch s1 97 = insert_char s1 (input.of []) 97 := by
    simp [dispatch, hin, dispatch_top]
  rw [hd, insert_char_eq s1 (input.of []) [] 97 (by simp) rfl rfl (by simp [hp])]
  simp [hp]

theorem startup_words : startup match_words [] = some { inputs := [input.of []] } := by
  rfl

theorem scan_all_a (N : Nat) (items : List (List Nat)) (hit : items.take N = List.replicate N [97]) :
    (List.range N).filter (fun j => scan_words true (items.getD j []) (query_words [97]))
      = List.range N := by
  rw [List.filter_eq_self]
  intro j hj
  have hj' : j < N := List.mem_range.1 hj
  have h1 : items[j]? = some [97] := by
    rw [getElem?_of_take_eq items _ N j hit hj']
    simp [List.getElem?_replicate, hj']
  rw [List.getD_eq_getElem?_getD, h1]
  decide

theorem selection_lost_general (N : Nat) (h1 : 1 < N) (hN : N < 2 ^ 64 - 1)
    (hv : N ≤ size_of_int (int_of_size (N - 1))) :
    ∃ s0 s1 s2,
      (startup match_words []).bind (fun s => load_items s (List.replicate N [97])) = some s0 ∧
      read_input s0 [27, 62] = Outcome.running s1 ∧
      s1.match_index = N - 1 ∧ s1.result[s1.match_index]? = some (N - 1) ∧
      read_input s1 [97] = Outcome.running s2 ∧
      s2.result = List.range N ∧ s2.match_index = 0 := by
  obtain ⟨s0, e0, a1, a2, a3, a4, a5, a6, a7, a8l, a8, a9, a10, -⟩ :=
    many_lines_loaded match_words N { inputs := [input.of []] } startup_words
      ⟨rfl, rfl, rfl, rfl, rfl, rfl, rfl⟩ hN
      (fun items _ _ => by
        obtain ⟨q1, q2, q3⟩ := match_words_none true [] 0 items N [] 0 (by simp) (by decide)
        exact ⟨_, q1, q2, q3⟩)
  have hlt : N - 1 < N := by omega
  have hg : s0.matches_[N - 1]? = some (N - 1) := by
    rw [getElem?_of_take_eq s0.matches_ (List.range N) N (N - 1) a8 hlt]
    simp [List.getElem?_range, hlt]
  have hsel : selected_item
      { ({ s0 with match_index := N - 1 } : State) with
        inputs := input.of [97] :: s0.inputs, input_point := 1 }
      = some (int_of_size (N - 1)) := by
    simp [selected_item, a7, hlt, hg]
  obtain ⟨m, k, b1, b2, b3⟩ := match_words_some true [97] 1 s0.items N s0.matches_ N
    (by simp) (by decide) a5
  rw [scan_all_a N s0.items a6] at b3
  obtain ⟨s2, e2, c1, c2, c3, -⟩ := match_fields
    { ({ s0 with match_index := N - 1 } : State) with
      inputs := input.of [97] :: s0.inputs, input_point := 1 }
    (input.of [97]) s0.inputs rfl _ hsel 0 m k
    (by
      show s0.algorithm s0.case_fold (input.of [97]) s0.items s0.num_items s0.matches_
        s0.num_matches = some (0, m, k)
      rw [a2, a3, a4, a7]; exact b1)
    b2
  have hnot : size_of_int (int_of_size (N - 1)) ∉ m.take k := by
    rw [b3, List.mem_range]; omega
  rw [if_neg hnot] at c3
  refine ⟨s0, { s0 with match_index := N - 1 }, s2, e0, select_last s0 N h1 a7 a9, rfl, ?_, ?_, ?_,
    c3⟩
  · show (s0.matches_.take s0.num_matches)[N - 1]? = some (N - 1)
    rw [a7, a8]
    simp [List.getElem?_range, hlt]
  · rw [type_a_on_empty_query { s0 with match_index := N - 1 } a1 a10, e2]; rfl
  · simp [State.result, c1, c2, b3]

/-- C3. A data stream of 2^31 + 1 lines `a` is read, the last item (index 2^31)
is selected with alt->, and `a` is typed.  Every item still matches, so the
selected item occurs in the new result, at position 2^31; but the selection
cursor after `match` is 0: the index does not survive the `int` variable
`item`. -/
theorem selection_lost_beyond_int_max :
    ∃ s0 s1 s2,
      (startup match_words []).bind
        (fun s => load_items s (List.replicate 2147483649 [97])) = some s0 ∧
      read_input s0 [27, 62] = Outcome.running s1 ∧
      s1.match_index = 2147483649 - 1 ∧ s1.result[s1.match_index]? = some (2147483649 - 1) ∧
      read_input s1 [97] = Outcome.running s2 ∧
      s2.result = List.range 2147483649 ∧ s2.match_index = 0 :=
  selection_lost_general 2147483649 (by decide) (by decide) (by decide)

/-- The recompute of `match_regex` and `match_eregex` on a pattern that does not
compile: the result is 1 and the array and the count are returned as they
were. -/
theorem regex_error_result (re : RegexLib) (extended fold : Bool) (inp : input)
    (text : List Nat) (htext : c_str inp.text = some text)
    (hfail : re.regcomp extended fold text = none) (items : List (List Nat)) (n : Nat)
    (m : List Nat) (k : Nat) :
    match_regex_with re extended fold inp items n m k = some (1, m, k) := by
  simp [match_regex_with, htext, hfail]

/-- Error-state freeze, with the selection below the `int` range: when the
query does not compile, `match` sets the error flag, leaves `matches` and
`num_matches` as they were, and a selected match with item index below 2^31
stays selected. -/
theorem regex_error_freeze (re : RegexLib) (extended : Bool) (s : State) (inp : input)
    (rest : List input) (hin : s.inputs = inp :: rest) (text : List Nat)
    (htext : c_str inp.text = some text)
    (hfail : re.regcomp extended s.case_fold text = none)
    (halg : s.algorithm = match_regex_with re extended)
    (hm : s.num_matches ≤ s.matches_.length) :
    ∃ s', match_ s = some s' ∧ s'.match_err = true ∧ s'.matches_ = s.matches_ ∧
      s'.num_matches = s.num_matches ∧
      (∀ v, s.match_index < s.num_matches → s.matches_[s.match_index]? = some v → v < 2 ^ 31 →
        s'.match_index < s'.num_matches ∧ s'.matches_[s'.match_index]? = some v) := by
  obtain ⟨item, hsel⟩ := selected_item_some s hm
  have hal : s.algorithm s.case_fold inp s.items s.num_items s.matches_ s.num_matches
      = some (1, s.matches_, s.num_matches) := by
    rw [halg]; exact regex_error_result re extended _ inp text htext hfail _ _ _ _
  obtain ⟨s', e, f1, f2, f3, f4, -⟩ := match_fields s inp rest hin item hsel 1 _ _ hal hm
  refine ⟨s', e, by rw [f4]; rfl, f1, f2, ?_⟩
  intro v hlt hv hv31
  have hitem : item = int_of_size v := by
    simp only [selected_item, hlt, if_true, hv] at hsel
    exact (Option.some.inj hsel).symm
  have hval : size_of_int item = v := by rw [hitem]; exact int_round_trip v hv31
  have hmem : v ∈ s.matches_.take s.num_matches := by
    rw [List.mem_iff_getElem?]
    exact ⟨s.match_index, by rw [List.getElem?_take_of_lt hlt]; exact hv⟩
  rw [hval, if_pos hmem] at f3
  have hidx := List.indexOf_lt_length.2 hmem
  have hidx' : s'.match_index < s.num_matches := by
    rw [f3]; simpa [Nat.min_eq_left hm] using hidx
  refine ⟨by rw [f2]; exact hidx', ?_⟩
  rw [f1, ← List.getElem?_take_of_lt hidx', f3, List.getElem?_eq_getElem hidx]
  simp

theorem startup_eregex (re : RegexLib) (f : List Nat → Bool)
    (hre : re.regcomp true true [] = some f) :
    startup (match_eregex re) []
      = some { algorithm := match_eregex re, inputs := [input.of []] } := by
  simp [startup, match_, selected_item, match_eregex, match_regex_with, cbuf, c_str, hre,
    scan_items, find_item, input.of]

theorem type_paren_on_empty_query (s1 : State) (hin : s1.inputs = [input.of []])
    (hp : s1.input_point = 0) :
    read_input s1 [40] = Outcome.ofState (match_ { s1 with
      inputs := input.of [40] :: s1.inputs, input_point := 1 }) := by
  rw [read_input_single s1 40 (by decide)]
  have hd : dispatch s1 40 = insert_char s1 (input.of []) 40 := by
    simp [dispatch, hin, dispatch_top]
  rw [hd, insert_char_eq s1 (input.of []) [] 40 (by simp) rfl rfl (by simp [hp])]
  simp [hp]

theorem regex_error_general (re : RegexLib) (f : List Nat → Bool) (N : Nat) (h1 : 1 < N)
    (hN : N < 2 ^ 64 - 1) (hv : N ≤ size_of_int (int_of_size (N - 1)))
    (hempty : re.regcomp true true [] = some f) (hall : f [97] = true)
    (hparen : re.regcomp true true [40] = none) :
    ∃ s0 s1 s2,
      (startup (match_eregex re) []).bind (fun s => load_items s (List.replicate N [97]))
        = some s0 ∧
      read_input s0 [27, 62] = Outcome.running s1 ∧
      s1.match_index = N - 1 ∧ s1.result[s1.match_index]? = some (N - 1) ∧
      read_input s1 [40] = Outcome.running s2 ∧
      s2.match_err = true ∧ s2.matches_ = s1.matches_ ∧ s2.num_matches = s1.num_matches ∧
      s2.match_index = 0 ∧ s2.result[s2.match_index]? = some 0 := by
  obtain ⟨s0, e0, a1, a2, a3, a4, a5, a6, a7, a8l, a8, a9, a10, -⟩ :=
    many_lines_loaded (match_eregex re) N { algorithm := match_eregex re, inputs := [input.of []] }
      (startup_eregex re f hempty) ⟨rfl, rfl, rfl, rfl, rfl, rfl, rfl⟩ hN
      (fun items hlen hit => by
        obtain ⟨m, k, q1, q2, q3⟩ := scan_items_spec f items N 0 [] 0 (by omega) (by simp)
        have hfil : (List.range' 0 N).filter (fun j => f (items.getD j [])) = List.range N := by
          rw [← List.range_eq_range', List.filter_eq_self]
          intro j hj
          have hj' : j < N := List.mem_range.1 hj
          have h1 : items[j]? = some [97] := by
            rw [getElem?_of_take_eq items _ N j hit hj']
            simp [List.getElem?_replicate, hj']
          rw [List.getD_eq_getElem?_getD, h1]
          exact hall
        rw [hfil] at q3
        simp only [List.take_zero, List.nil_append] at q3
        have hk : k = N := by
          have := congrArg List.length q3
          simpa [Nat.min_eq_left q2] using this
        subst hk
        refine ⟨m, ?_, q2, q3⟩
        simp [match_eregex, match_regex_with, input.of, c_str_cbuf, hempty, q1])
  have hlt : N - 1 < N := by omega
  have hg : s0.matches_[N - 1]? = some (N - 1) := by
    rw [getElem?_of_take_eq s0.matches_ (List.range N) N (N - 1) a8 hlt]
    simp [List.getElem?_range, hlt]
  have hsel : selected_item
      { ({ s0 with match_index := N - 1 } : State) with
        inputs := input.of [40] :: s0.inputs, input_point := 1 }
      = some (int_of_size (N - 1)) := by
    simp [selected_item, a7, hlt, hg]
  obtain ⟨s2, e2, c1, c2, c3, c4, -⟩ := match_fields
    { ({ s0 with match_index := N - 1 } : State) with
      inputs := input.of [40] :: s0.inputs, input_point := 1 }
    (input.of [40]) s0.inputs rfl _ hsel 1 s0.matches_ s0.num_matches
    (by
      show s0.algorithm s0.case_fold (input.of [40]) s0.items s0.num_items s0.matches_
        s0.num_matches = some (1, s0.matches_, s0.num_matches)
      rw [a2, a3]
      exact regex_error_result re true true (input.of [40]) [40] (by decide) hparen _ _ _ _)
    (by rw [a7]; exact a8l)
  have hnot : size_of_int (int_of_size (N - 1)) ∉ s0.matches_.take s0.num_matches := by
    rw [a7, a8, List.mem_range]; omega
  rw [if_neg hnot] at c3
  refine ⟨s0, { s0 with match_index := N - 1 }, s2, e0, select_last s0 N h1 a7 a9, rfl, ?_, ?_,
    by rw [c4]; rfl, c1, c2, c3, ?_⟩
  · show (s0.matches_.take s0.num_matches)[N - 1]? = some (N - 1)
    rw [a7, a8]
    simp [List.getElem?_range, hlt]
  · rw [type_paren_on_empty_query { s0 with match_index := N - 1 } a1 a10, e2]; rfl
  · show (s2.matches_.take s2.num_matches)[s2.match_index]? = some 0
    rw [c1, c2, c3, a7, a8]
    exact List.getElem?_range (by omega)

/-- C8. Under the extended-pattern algorithm, with a library that compiles the
empty pattern to an expression matching `a` and rejects the pattern `(`: a
data stream of 2^31 + 1 lines `a` is read, the last item (index 2^31) is
selected with alt->, and `(` is typed.  The recompute fails: the error flag is
set and `matches` and `num_matches` are unchanged; but the selection cursor
moves from the item 2^31 to the item 0, because the index does not survive the
`int` variable `item` of `match`. -/
theorem regex_error_moves_selection_beyond_int_max (re : RegexLib) (f : List Nat → Bool)
    (hempty : re.regcomp true true [] = some f) (hall : f [97] = true)
    (hparen : re.regcomp true true [40] = none) :
    ∃ s0 s1 s2,
      (startup (match_eregex re) []).bind
        (fun s => load_items s (List.replicate 2147483649 [97])) = some s0 ∧
      read_input s0 [27, 62] = Outcome.running s1 ∧
      s1.match_index = 2147483649 - 1 ∧ s1.result[s1.match_index]? = some (2147483649 - 1) ∧
      read_input s1 [40] = Outcome.running s2 ∧
      s2.match_err = true ∧ s2.matches_ = s1.matches_ ∧ s2.num_matches = s1.num_matches ∧
      s2.match_index = 0 ∧ s2.result[s2.match_index]? = some 0 :=
  regex_error_general re f 2147483649 (by decide) (by decide) (by decide) hempty hall hparen

theorem regex_error_moves_selection_beyond_int_max_witness :
    ∃ s0 s1 s2,
      (startup (match_eregex toy_regex) []).bind
        (fun s => load_items s (List.replicate 2147483649 [97])) = some s0 ∧
      read_input s0 [27, 62] = Outcome.running s1 ∧
      s1.match_index = 2147483649 - 1 ∧ s1.result[s1.match_index]? = some (2147483649 - 1) ∧
      read_input s1 [40] = Outcome.running s2 ∧
      s2.match_err = true ∧ s2.matches_ = s1.matches_ ∧ s2.num_matches = s1.num_matches ∧
      s2.match_index = 0 ∧ s2.result[s2.match_index]? = some 0 :=
  regex_error_moves_selection_beyond_int_max toy_regex (fun _ => true) rfl rfl rfl

theorem printf_cons (c : Nat) (r : List Nat) (hc : c ≠ 37) :
    printf (c :: r) = (printf r).map (fun t => c :: t) := by
  rw [printf]
  · intro r' h1 _
    exact hc h1
  · intro h1
    exact hc h1

theorem printf_plain (fmt : List Nat) (h : 37 ∉ fmt) : printf fmt = some fmt := by
  induction fmt with
  | nil => rfl
  | cons c r ih =>
    have hc : c ≠ 37 := by intro hh; apply h; simp [hh]
    have hr : 37 ∉ r := by intro hh; apply h; simp [hh]
    rw [printf_cons c r hc, ih hr]; rfl

/-- Accept on an item without `%`: the item text and a newline are written and
the exit code is 0; without a selected match nothing is written and the exit
code is 1. -/
theorem accept_plain (s : State) (hne : s.inputs ≠ []) :
    (∀ m it, s.match_index < s.num_matches → s.matches_[s.match_index]? = some m →
      m < s.num_items → s.items[m]? = some it → 37 ∉ it →
      read_input s [13] = Outcome.exited (it ++ [10]) 0) ∧
    (¬ s.match_index < s.num_matches → read_input s [13] = Outcome.exited [] 1) := by
  obtain ⟨top, rest, hin⟩ : ∃ top rest, s.inputs = top :: rest := by
    cases hs : s.inputs with
    | nil => exact absurd hs hne
    | cons a b => exact ⟨a, b, rfl⟩
  constructor
  · intro m it h1 h2 h3 h4 h5
    rw [read_input_single s 13 (by decide)]
    simp [dispatch, hin, dispatch_top, accept, h1, h2, h3, h4, printf_plain it h5, EXIT_MATCH]
  · intro h1
    rw [read_input_single s 13 (by decide)]
    simp [dispatch, hin, dispatch_top, accept, h1, EXIT_NOMATCH]

theorem split_words_spaces (f : Nat) (text : List Nat) (htext : ∀ c ∈ text, c = 32) :
    split_words (f + 1) text = [] := by
  induction text with
  | nil => simp [split_words, strtok]
  | cons c r ih =>
    have hc : c = 32 := htext c (by simp)
    subst hc
    rw [split_words_space]
    exact ih (fun x hx => htext x (by simp [hx]))

/-- C11. Empty-query identity: for a query text without a token (the empty
text, or spaces only) and `n` items, `match_words` finds no word, returns 0 (no
error), sets `num_matches = n` and leaves `[0, 1, ..., n-1]` in
`matches[0..n)`. -/
theorem match_words_empty_query (fold : Bool) (text : List Nat) (items : List (List Nat))
    (m0 : List Nat) (k0 : Nat) (htext : ∀ c ∈ text, c = 32) :
    query_words text = [] ∧
    ∃ m, match_words fold (input.of text) items items.length m0 k0
        = some (0, m, items.length) ∧
      m.take items.length = List.range items.length := by
  have hw : query_words text = [] := split_words_spaces _ text htext
  have h0 : 0 ∉ text := by
    intro h
    have := htext 0 h
    omega
  obtain ⟨h1, -, h3⟩ := match_words_none fold text text.length items items.length m0 k0 h0 hw
  exact ⟨hw, _, h1, h3⟩

theorem match_words_empty_query_witness :
    query_words (cstr "  ") = [] ∧
    ∃ m, match_words true (input.of (cstr "  ")) [cstr "apple", cstr "banana"]
        [cstr "apple", cstr "banana"].length [7, 7, 7] 3
        = some (0, m, [cstr "apple", cstr "banana"].length) ∧
      m.take [cstr "apple", cstr "banana"].length
        = List.range [cstr "apple", cstr "banana"].length :=
  match_words_empty_query true (cstr "  ") [cstr "apple", cstr "banana"] [7, 7, 7] 3
    (by decide)

/-- C12. Navigation wrap-around: in a state with at least one match and the
selection cursor on a match, "next" (C-n, C-r) moves the cursor to
`(match_index + 1) mod num_matches`, "previous" (C-p, C-s) to
`(match_index + num_matches - 1) mod num_matches`, "first" (alt-<) to 0 and
"last" (alt->) to `num_matches - 1`; nothing else in the state changes. -/
theorem navigation_wraps (s : State) (hin : s.inputs ≠ []) (h1 : 1 ≤ s.num_matches)
    (hsel : s.match_index < s.num_matches) :
    (∀ c, c = 14 ∨ c = 18 → read_input s [c] = Outcome.running
      { s with match_index := (s.match_index + 1) % s.num_matches }) ∧
    (∀ c, c = 16 ∨ c = 19 → read_input s [c] = Outcome.running
      { s with match_index := (s.match_index + s.num_matches - 1) % s.num_matches }) ∧
    read_input s [27, 60] = Outcome.running { s with match_index := 0 } ∧
    read_input s [27, 62] = Outcome.running { s with match_index := s.num_matches - 1 } := by
  obtain ⟨top, rest, hin'⟩ : ∃ top rest, s.inputs = top :: rest := by
    cases hs : s.inputs with
    | nil => exact absurd hs hin
    | cons a b => exact ⟨a, b, rfl⟩
  have hsub : size_sub s.num_matches 1 = s.num_matches - 1 := size_sub_of_le _ _ h1
  have hpos : s.num_matches > 0 := h1
  refine ⟨?_, ?_, ?_, ?_⟩
  · intro c hc
    have hne : c ≠ 27 := by omega
    rw [read_input_single s c hne]
    have hd : dispatch s c = Outcome.running
        (if s.match_index < size_sub s.num_matches 1
          then { s with match_index := s.match_index + 1 }
         else if s.num_matches > 0 then { s with match_index := 0 }
         else s) := by
      simp only [dispatch, hin', dispatch_top]
      have hquit : ¬ (c = 3 ∨ c = 7) := by omega
      rw [if_neg hquit, if_neg (show c ≠ 2 by omega), if_neg (show c ≠ 6 by omega),
        if_neg (show c ≠ 1 by omega), if_neg (show c ≠ 5 by omega), if_pos hc]
    rw [hd, hsub]
    by_cases hlt : s.match_index < s.num_matches - 1
    · rw [if_pos hlt, Nat.mod_eq_of_lt (by omega)]
    · have hlast : s.match_index + 1 = s.num_matches := by omega
      rw [if_neg hlt, if_pos hpos, hlast, Nat.mod_self]
  · intro c hc
    have hne : c ≠ 27 := by omega
    rw [read_input_single s c hne]
    have hd : dispatch s c = Outcome.running
        (if s.match_index > 0 then { s with match_index := s.match_index - 1 }
         else if s.num_matches > 0 then { s with match_index := size_sub s.num_matches 1 }
         else s) := by
      simp only [dispatch, hin', dispatch_top]
      have hquit : ¬ (c = 3 ∨ c = 7) := by omega
      have hnext : ¬ (c = 14 ∨ c = 18) := by omega
      rw [if_neg hquit, if_neg (show c ≠ 2 by omega), if_neg (show c ≠ 6 by omega),
        if_neg (show c ≠ 1 by omega), if_neg (show c ≠ 5 by omega), if_neg hnext, if_pos hc]
    rw [hd, hsub]
    by_cases hgt : s.match_index > 0
    · have e : s.match_index + s.num_matches - 1 = (s.match_index - 1) + s.num_matches := by omega
      rw [if_pos hgt, e, Nat.add_mod_right, Nat.mod_eq_of_lt (by omega)]
    · have h0 : s.match_index = 0 := by omega
      rw [if_neg hgt, if_pos hpos, h0, Nat.zero_add, Nat.mod_eq_of_lt (by omega)]
  · simp only [read_input, read_input_loop, dispatch_esc, if_true]
    by_cases hgt : s.match_index > 0
    · simp [hgt]
    · have h0 : s.match_index = 0 := by omega
      simp only [hgt, if_false]
      congr 1
      rw [← h0]
  · simp only [read_input, read_input_loop, dispatch_esc, if_true, hsub]
    by_cases hlt : s.match_index < s.num_matches - 1
    · simp [hlt]
    · have hlast : s.match_index = s.num_matches - 1 := by omega
      simp only [hlt, if_false]
      simp
      rw [← hlast]

theorem navigation_wraps_witness :
    (∀ c, c = 14 ∨ c = 18 → read_input
        { inputs := [input.of []], matches_ := [0, 2], num_matches := 2, match_index := 1 } [c]
      = Outcome.running
        { ({ inputs := [input.of []], matches_ := [0, 2], num_matches := 2,
             match_index := 1 } : State) with match_index := (1 + 1) % 2 }) ∧
    (∀ c, c = 16 ∨ c = 19 → read_input
        { inputs := [input.of []], matches_ := [0, 2], num_matches := 2, match_index := 1 } [c]
      = Outcome.running
        { ({ inputs := [input.of []], matches_ := [0, 2], num_matches := 2,
             match_index := 1 } : State) with match_index := (1 + 2 - 1) % 2 }) ∧
    read_input { inputs := [input.of []], matches_ := [0, 2], num_matches := 2,
                 match_index := 1 } [27, 60]
      = Outcome.running
        { ({ inputs := [input.of []], matches_ := [0, 2], num_matches := 2,
             match_index := 1 } : State) with match_index := 0 } ∧
    read_input { inputs := [input.of []], matches_ := [0, 2], num_matches := 2,
                 match_index := 1 } [27, 62]
      = Outcome.running
        { ({ inputs := [input.of []], matches_ := [0, 2], num_matches := 2,
             match_index := 1 } : State) with match_index := 2 - 1 } :=
  navigation_wraps
    { inputs := [input.of []], matches_ := [0, 2], num_matches := 2, match_index := 1 }
    (by simp) (by decide) (by decide)

/-- The block the C-k branch builds from the text `t` with the cursor at
`p < |t|`: the first `p` bytes of `t` followed by one indeterminate byte, so no
terminated string; the recorded length is `p`, the cursor stays at `p`, and
the previous entries stay beneath the new one. -/
theorem kill_to_end_pushed_eq (s : State) (top : input) (t : List Nat) (h0 : 0 ∉ t)
    (htext : top.text = cbuf t) (hp : s.input_point < t.length) :
    ∃ s1, kill_to_end_pushed s top = some s1 ∧
      s1.inputs = { text := (t.take s.input_point).map some ++ [none],
                    length := s.input_point } :: s.inputs ∧
      s1.input_point = s.input_point ∧
      c_str ((t.take s.input_point).map some ++ [none]) = none := by
  have hb := strncpy_blank t s.input_point (s.input_point + 1) h0 (by omega) (by omega)
  have h1 : s.input_point + 1 - s.input_point = 1 := by omega
  rw [h1] at hb
  refine ⟨set_text (push_input s s.input_point) ((t.take s.input_point).map some ++ [none]),
    ?_, ?_, rfl, ?_⟩
  · simp only [kill_to_end_pushed, htext, hb, Option.map_some', List.replicate_one]
  · simp [set_text_push_input]
  · have h0' : 0 ∉ t.take s.input_point := fun h => h0 (List.mem_of_mem_take h)
    generalize t.take s.input_point = l at h0'
    induction l with
    | nil => rfl
    | cons c r ih =>
      have hc : c ≠ 0 := by intro h; apply h0'; simp [h]
      have hr : 0 ∉ r := by intro h; apply h0'; simp [h]
      simp [c_str, hc, ih hr]

/-- C14. With the text `ab` and the cursor at 1, the C-k branch pushes an
entry of recorded length 1 whose block holds `a` followed by an indeterminate
byte: it is not a terminated string, its actual length is not determined, and
the `match` that follows reads past the `a`.  The entry `ab` stays beneath. -/
theorem kill_to_end_leaves_text_unterminated :
    query_ab_at_1.state.map State.query = some (some (cstr "ab"), 1) ∧
    (query_ab_at_1.state.bind
        (fun s => s.inputs.head?.bind (kill_to_end_pushed s))).map State.inputs
      = some [{ text := [some 97, none], length := 1 }, input.of (cstr "ab")] ∧
    (query_ab_at_1.state.bind
        (fun s => s.inputs.head?.bind (kill_to_end_pushed s))).map State.text = some none ∧
    (query_ab_at_1.state.bind
        (fun s => s.inputs.head?.bind (kill_to_end_pushed s))).map State.input_point = some 1 ∧
    (query_ab_at_1.next [11]).is_undefined = true := by
  decide

theorem edit_step_query (s : State) (h : Inv s) (t : List Nat) (h0 : 0 ∉ t) (p : Nat)
    (hp : p ≤ t.length) :
    ∃ s', Outcome.ofState (match_ { s with inputs := input.of t :: s.inputs, input_point := p })
        = Outcome.running s' ∧
      s'.inputs = input.of t :: s.inputs ∧ s'.query = (some t, p) := by
  obtain ⟨s', e1, -, e3, e4, -, -⟩ := edit_step s h t h0 p hp
  refine ⟨s', e1, e3, ?_⟩
  simp [State.query, State.text, e3, e4, input.of, c_str_cbuf t h0]

/-- C15. Editor reference semantics.  In a well-formed state with text `t` and
cursor `p`, outside an escape sequence: a printable byte `c` pushes the entry
`t[0..p) ++ [c] ++ t[p..)` with cursor `p + 1`; DEL with `p > 0` pushes
`t[0..p-1) ++ t[p..)` with cursor `p - 1`; C-d with `p < |t|` pushes
`t[0..p) ++ t[p+1..)` with cursor `p`; C-u with `p > 0` pushes `t[p..)` with
cursor 0; each pushes exactly one entry on the unchanged chain.  DEL and C-u
at `p = 0`, C-d at `p = |t|` and every ignored byte leave the state as it
is. -/
theorem editor_reference_semantics (s : State) (h : Inv s) :
    ∃ t, s.text = some t ∧ s.input_point ≤ t.length ∧
      (∀ c, 32 ≤ c → c ≤ 126 → ∃ s', read_input s [c] = Outcome.running s' ∧
        s'.inputs = input.of (t.take s.input_point ++ c :: t.drop s.input_point) :: s.inputs ∧
        s'.query = (some (t.take s.input_point ++ c :: t.drop s.input_point),
          s.input_point + 1)) ∧
      (0 < s.input_point → ∃ s', read_input s [127] = Outcome.running s' ∧
        s'.inputs = input.of (t.take (s.input_point - 1) ++ t.drop s.input_point) :: s.inputs ∧
        s'.query = (some (t.take (s.input_point - 1) ++ t.drop s.input_point),
          s.input_point - 1)) ∧
      (s.input_point < t.length → ∃ s', read_input s [4] = Outcome.running s' ∧
        s'.inputs = input.of (t.take s.input_point ++ t.drop (s.input_point + 1)) :: s.inputs ∧
        s'.query = (some (t.take s.input_point ++ t.drop (s.input_point + 1)),
          s.input_point)) ∧
      (0 < s.input_point → ∃ s', read_input s [21] = Outcome.running s' ∧
        s'.inputs = input.of (t.drop s.input_point) :: s.inputs ∧
        s'.query = (some (t.drop s.input_point), 0)) ∧
      (s.input_point = 0 → read_input s [127] = Outcome.running s ∧
        read_input s [21] = Outcome.running s) ∧
      (s.input_point = t.length → read_input s [4] = Outcome.running s) ∧
      (∀ c, ignored_byte c → read_input s [c] = Outcome.running s) := by
  obtain ⟨top, rest, hin⟩ : ∃ top rest, s.inputs = top :: rest := by
    cases hs : s.inputs with
    | nil => exact absurd hs h.1
    | cons a b => exact ⟨a, b, rfl⟩
  obtain ⟨t, h0, htext, hlen⟩ := h.2 top (by simp [hin])
  have hp : s.input_point ≤ t.length := by
    have := h.3 top (by simp [hin]); omega
  have hd : ∀ c, dispatch s c = dispatch_top s top rest c := by
    intro c; simp only [dispatch, hin]
  have htk : ∀ a, 0 ∉ t.take a := fun a hh => h0 (List.mem_of_mem_take hh)
  have hdr : ∀ a, 0 ∉ t.drop a := fun a hh => h0 (List.mem_of_mem_drop hh)
  refine ⟨t, by simp [State.text, hin, htext, c_str_cbuf t h0], hp, ?_, ?_, ?_, ?_, ?_, ?_, ?_⟩
  · intro c hc1 hc2
    rw [read_input_single s c (by omega), hd]
    unfold dispatch_top
    have hquit : ¬ (c = 3 ∨ c = 7) := by omega
    have hnext : ¬ (c = 14 ∨ c = 18) := by omega
    have hprev : ¬ (c = 16 ∨ c = 19) := by omega
    rw [if_neg hquit, if_neg (show c ≠ 2 by omega), if_neg (show c ≠ 6 by omega),
      if_neg (show c ≠ 1 by omega), if_neg (show c ≠ 5 by omega), if_neg hnext, if_neg hprev,
      if_neg (show c ≠ 22 by omega), if_neg (show c ≠ 11 by omega),
      if_neg (show c ≠ 21 by omega), if_neg (show c ≠ 4 by omega),
      if_neg (show c ≠ 127 by omega), if_neg (show c ≠ 31 by omega),
      if_neg (show c ≠ 12 by omega), if_neg (show c ≠ 9 by omega),
      if_neg (show c ≠ 13 by omega), if_pos ⟨hc1, hc2⟩,
      insert_char_eq s top t c h0 htext hlen hp]
    exact edit_step_query s h _
      (by
        intro hh
        rcases List.mem_append.1 hh with hh | hh
        · exact htk _ hh
        · rcases List.mem_cons.1 hh with hh | hh
          · omega
          · exact hdr _ hh)
      (s.input_point + 1) (by simp; omega)
  · intro hp0
    rw [read_input_single s 127 (by decide), hd]
    have e : dispatch_top s top rest 127 = backspace s top := by simp [dispatch_top]
    rw [e, backspace_eq s top t h0 htext hlen hp0 hp]
    exact edit_step_query s h _
      (by
        intro hh
        rcases List.mem_append.1 hh with hh | hh
        · exact htk _ hh
        · exact hdr _ hh)
      (s.input_point - 1) (by simp; omega)
  · intro hpl
    rw [read_input_single s 4 (by decide), hd]
    have e : dispatch_top s top rest 4 = delete_char s top := by simp [dispatch_top]
    rw [e, delete_char_eq s top t h0 htext hlen hpl]
    exact edit_step_query s h _
      (by
        intro hh
        rcases List.mem_append.1 hh with hh | hh
        · exact htk _ hh
        · exact hdr _ hh)
      s.input_point (by simp; omega)
  · intro hp0
    rw [read_input_single s 21 (by decide), hd]
    have e : dispatch_top s top rest 21 = kill_to_start s top := by simp [dispatch_top]
    rw [e, kill_to_start_eq s top t h0 htext hlen hp0 hp]
    exact edit_step_query s h _ (hdr _) 0 (by omega)
  · intro hp0
    constructor
    · rw [read_input_single s 127 (by decide), hd]
      simp [dispatch_top, backspace, hp0]
    · rw [read_input_single s 21 (by decide), hd]
      simp [dispatch_top, kill_to_start, hp0]
  · intro hpe
    rw [read_input_single s 4 (by decide), hd]
    simp [dispatch_top, delete_char, hlen, hpe]
  · intro c hc
    obtain ⟨c1, c2, c3, c4, c5, c6, c7, c9, c11, c12, c13, c14, c16, c18, c19, c21, c22, c27, c31,
      c127, hpr⟩ := hc
    rw [read_input_single s c c27, hd]
    unfold dispatch_top
    rw [if_neg (by omega), if_neg c2, if_neg c6, if_neg c1, if_neg c5, if_neg (by omega),
      if_neg (by omega), if_neg c22, if_neg c11, if_neg c21, if_neg c4, if_neg c127, if_neg c31,
      if_neg c12, if_neg c9, if_neg c13, if_neg hpr]

theorem editor_reference_semantics_witness :
    ∃ t, State.text { inputs := [input.of (cstr "ab")], input_point := 1 } = some t ∧
      1 ≤ t.length ∧
      (∀ c, 32 ≤ c → c ≤ 126 → ∃ s',
        read_input { inputs := [input.of (cstr "ab")], input_point := 1 } [c]
          = Outcome.running s' ∧
        s'.inputs = input.of (t.take 1 ++ c :: t.drop 1) :: [input.of (cstr "ab")] ∧
        s'.query = (some (t.take 1 ++ c :: t.drop 1), 1 + 1)) ∧
      (0 < 1 → ∃ s', read_input { inputs := [input.of (cstr "ab")], input_point := 1 } [127]
          = Outcome.running s' ∧
        s'.inputs = input.of (t.take (1 - 1) ++ t.drop 1) :: [input.of (cstr "ab")] ∧
        s'.query = (some (t.take (1 - 1) ++ t.drop 1), 1 - 1)) ∧
      (1 < t.length → ∃ s', read_input { inputs := [input.of (cstr "ab")], input_point := 1 } [4]
          = Outcome.running s' ∧
        s'.inputs = input.of (t.take 1 ++ t.drop (1 + 1)) :: [input.of (cstr "ab")] ∧
        s'.query = (some (t.take 1 ++ t.drop (1 + 1)), 1)) ∧
      (0 < 1 → ∃ s', read_input { inputs := [input.of (cstr "ab")], input_point := 1 } [21]
          = Outcome.running s' ∧
        s'.inputs = input.of (t.drop 1) :: [input.of (cstr "ab")] ∧
        s'.query = (some (t.drop 1), 0)) ∧
      (1 = 0 → read_input { inputs := [input.of (cstr "ab")], input_point := 1 } [127]
          = Outcome.running { inputs := [input.of (cstr "ab")], input_point := 1 } ∧
        read_input { inputs := [input.of (cstr "ab")], input_point := 1 } [21]
          = Outcome.running { inputs := [input.of (cstr "ab")], input_point := 1 }) ∧
      (1 = t.length → read_input { inputs := [input.of (cstr "ab")], input_point := 1 } [4]
          = Outcome.running { inputs := [input.of (cstr "ab")], input_point := 1 }) ∧
      (∀ c, ignored_byte c →
        read_input { inputs := [input.of (cstr "ab")], input_point := 1 } [c]
          = Outcome.running { inputs := [input.of (cstr "ab")], input_point := 1 }) :=
  editor_reference_semantics { inputs := [input.of (cstr "ab")], input_point := 1 }
    ⟨by simp, by
        intro inp hinp
        simp only [List.mem_singleton] at hinp
        subst hinp
        exact ⟨cstr "ab", by decide, rfl, rfl⟩,
      by
        intro top htop
        simp only [List.head?_cons, Option.mem_def, Option.some.injEq] at htop
        subst htop
        decide,
      by decide, by decide, Or.inl rfl⟩

theorem known_algorithm_unterminated (a : Algorithm) (ha : KnownAlgorithm a) (fold : Bool)
    (inp : input) (hinp : c_str inp.text = none) (items : List (List Nat)) (n : Nat)
    (m : List Nat) (k : Nat) : a fold inp items n m k = none := by
  rcases ha with rfl | ⟨re, rfl | rfl⟩
  · simp [match_words, hinp]
  · simp [match_regex, match_regex_with, hinp]
  · simp [match_eregex, match_regex_with, hinp]

/-- Once it takes effect, C-k leads to undefined behaviour under each of the
three algorithms: `match` hands the unterminated text to the algorithm. -/
theorem kill_to_end_undefined (s : State) (h : Inv s) (top : input) (rest : List input)
    (hin : s.inputs = top :: rest) (hp : s.input_point < top.length) :
    kill_to_end s top = Outcome.undefined := by
  obtain ⟨t, h0, htext, hlen⟩ := h.2 top (by simp [hin])
  obtain ⟨s1, e1, e2, -, e4⟩ := kill_to_end_pushed_eq s top t h0 htext (by omega)
  have hm : match_ s1 = none := by
    simp only [match_, e2]
    cases selected_item s1 with
    | none => rfl
    | some item =>
      simp only
      rw [known_algorithm_unterminated s1.algorithm
        (by
          have : s1.algorithm = s.algorithm := by
            have := e1
            simp only [kill_to_end_pushed, Option.map_eq_some'] at this
            obtain ⟨b, -, hb⟩ := this
            rw [← hb, set_text_push_input]
          rw [this]; exact h.6)
        s1.case_fold _ e4]
  simp only [kill_to_end, hp, if_true, e1, hm]
  rfl

theorem restrict_loop_bounds (ms : List Nat) (n fuel j i k : Nat) (items : List (List Nat))
    (hk : k ≤ i) (hi : i ≤ items.length) (items' : List (List Nat)) (k' : Nat)
    (h : restrict_loop ms n fuel j i k items = some (items', k')) :
    items'.length = items.length ∧ k' ≤ items'.length := by
  induction fuel generalizing j i k items with
  | zero =>
    simp only [restrict_loop, Option.some.injEq, Prod.mk.injEq] at h
    obtain ⟨rfl, rfl⟩ := h
    exact ⟨rfl, by omega⟩
  | succ f ih =>
    simp only [restrict_loop] at h
    cases hm : ms[j]? with
    | none => simp [hm] at h
    | some m =>
      simp only [hm] at h
      split at h
      · rename_i hc
        cases hit : items[m]? with
        | none => simp [hit] at h
        | some it =>
          simp only [hit] at h
          have hml : m < items.length := by
            by_contra hcon
            rw [List.getElem?_eq_none (by omega)] at hit
            cases hit
          have hkl : k < items.length := by omega
          have hlen : (store items k it).length = items.length := by
            rw [store_eq_set _ _ _ hkl, List.length_set]
          obtain ⟨a, b⟩ := ih (j + 1) (m + 1) (k + 1) (store items k it) (by omega)
            (by rw [hlen]; omega) h
          exact ⟨by rw [a, hlen], b⟩
      · cases h

theorem restrict_inv (s : State) (h : Inv s) (s' : State)
    (hr : restrict s = Outcome.running s') : Inv s' := by
  unfold restrict at hr
  split at hr
  · cases hl : restrict_loop s.matches_ s.num_items s.num_matches 0 0 0 s.items with
    | none => simp [hl] at hr
    | some r =>
      obtain ⟨items', k'⟩ := r
      simp only [hl] at hr
      obtain ⟨b1, b2⟩ := restrict_loop_bounds _ _ _ _ _ _ _ (le_refl _) (Nat.zero_le _) _ _ hl
      have hinv : Inv
          { s with
            items := items', num_items := k', inputs := [{ text := [some 0], length := 0 }],
            input_point := 0, match_index := 0 } := by
        refine ⟨by simp, ?_, ?_, b2, h.5, h.6⟩
        · intro inp hinp
          simp only [List.mem_singleton] at hinp
          subst hinp
          exact ⟨[], by simp, rfl, rfl⟩
        · intro top htop
          simp only [List.head?_cons, Option.mem_def, Option.some.injEq] at htop
          subst htop
          exact le_refl _
      obtain ⟨s2, e1, -, -, -, -, e6⟩ := match_inv _ hinv
      rw [e1] at hr
      cases hr
      exact e6
  · cases hr
    exact h

theorem dispatch_inv (s : State) (c : Nat) (h : Inv s) (s' : State)
    (hr : dispatch s c = Outcome.running s') : Inv s' := by
  by_cases hc : edit_or_move c
  · obtain ⟨s1, e1, i1, -⟩ := dispatch_edit_or_move s c h hc
    rw [e1] at hr
    cases hr
    exact i1
  · obtain ⟨top, rest, hin⟩ : ∃ top rest, s.inputs = top :: rest := by
      cases hs : s.inputs with
      | nil => exact absurd hs h.1
      | cons a b => exact ⟨a, b, rfl⟩
    have hd : dispatch s c = dispatch_top s top rest c := by simp only [dispatch, hin]
    rw [hd] at hr
    have hcases : c = 3 ∨ c = 7 ∨ c = 11 ∨ c = 12 ∨ c = 13 ∨ c = 27 ∨ c = 31 := by
      unfold edit_or_move at hc
      omega
    rcases hcases with rfl | rfl | rfl | rfl | rfl | rfl | rfl
    · simp [dispatch_top] at hr
    · simp [dispatch_top] at hr
    · have e : dispatch_top s top rest 11 = kill_to_end s top := by simp [dispatch_top]
      rw [e] at hr
      by_cases hp : s.input_point < top.length
      · rw [kill_to_end_undefined s h top rest hin hp] at hr
        cases hr
      · simp only [kill_to_end, hp, if_false] at hr
        cases hr
        exact h
    · have e : dispatch_top s top rest 12 = restrict s := by simp [dispatch_top]
      rw [e] at hr
      exact restrict_inv s h s' hr
    · have e : dispatch_top s top rest 13 = accept s := by simp [dispatch_top]
      rw [e] at hr
      unfold accept at hr
      split at hr
      · split at hr
        · cases hr
        · split at hr
          · split at hr
            · cases hr
            · split at hr <;> cases hr
          · cases hr
      · cases hr
    · simp [dispatch_top] at hr
      cases hr
      exact h
    · have e : dispatch_top s top rest 31 = undo s rest := by simp [dispatch_top]
      rw [e] at hr
      cases rest with
      | nil =>
        simp only [undo] at hr
        cases hr
        exact h
      | cons prev older =>
        obtain ⟨s1, e1, i1, -⟩ := undo_step s h top prev older hin
        rw [← e, ← hd, e1] at hr
        cases hr
        exact i1

theorem dispatch_esc_inv (s : State) (c : Nat) (h : Inv s) : Inv (dispatch_esc s c) := by
  unfold dispatch_esc
  split
  · split
    · exact inv_index s h _
    · exact h
  · split
    · split
      · exact inv_index s h _
      · exact h
    · exact h

theorem read_input_loop_inv (ks : List Nat) (s : State) (esc : Bool) (h : Inv s) (s' : State)
    (hr : read_input_loop s esc ks = Outcome.running s') : Inv s' := by
  induction ks generalizing s esc with
  | nil =>
    simp only [read_input_loop] at hr
    cases hr
    exact h
  | cons c cs ih =>
    cases esc with
    | true =>
      simp only [read_input_loop] at hr
      exact ih _ _ (dispatch_esc_inv s c h) hr
    | false =>
      simp only [read_input_loop] at hr
      split at hr
      · exact ih _ _ h hr
      · cases hd : dispatch s c with
        | running s1 =>
          simp only [hd] at hr
          exact ih _ _ (dispatch_inv s c h s1 hd) hr
        | exited out code => simp [hd] at hr
        | undefined => simp [hd] at hr

/-- C13. With header capture enabled and a data stream that consists of the
single line `HEADER` without a final newline, no header is captured: the line
becomes item 0 and is in the match result.  (With the newline, the line is
captured as the header and the next line becomes the first item.) -/
theorem unterminated_first_line_is_not_header :
    (header_session.run [Event.data (cstr "HEADER") true]).state.map State.header
      = some none ∧
    (header_session.run [Event.data (cstr "HEADER") true]).state.map State.live_items
      = some [cstr "HEADER"] ∧
    (header_session.run [Event.data (cstr "HEADER") true]).state.map State.num_items
      = some 1 ∧
    (header_session.run [Event.data (cstr "HEADER") true]).state.map State.result
      = some [0] ∧
    (header_session.run [Event.data (cstr "\n\nHEAD") false, Event.data (cstr "ER") true]).state.map
        State.live_items = some [cstr "HEADER"] ∧
    (header_session.run [Event.data (cstr "HEADER\nitem") true]).state.map State.header
      = some (some (cstr "HEADER")) ∧
    (header_session.run [Event.data (cstr "HEADER\nitem") true]).state.map State.live_items
      = some [cstr "item"] := by
  decide

/-- C20. With footer capture enabled and a data stream without a non-empty
line, the item count is 0 when the end of the stream is reached, `--num_items`
wraps to `SIZE_MAX`, and `items[SIZE_MAX]` is read: the behaviour is undefined.
The same happens when the only non-empty line was captured as the header. -/
theorem footer_capture_wraps_item_count :
    (footer_session.state.bind (fun s => read_lines 3 s (cstr "\n\n"))).map State.num_items
      = some 0 ∧
    (footer_session.state.bind (fun s => read_lines 3 s (cstr "\n\n"))).map footer_index
      = some (2 ^ 64 - 1) ∧
    (footer_session.run [Event.data (cstr "\n\n") true]).is_undefined = true ∧
    (footer_session.run [Event.data [] true]).is_undefined = true ∧
    (header_footer_session.state.bind (fun s => read_lines 8 s (cstr "HEADER\n"))).map
        State.num_items = some 0 ∧
    (header_footer_session.state.bind (fun s => read_lines 8 s (cstr "HEADER\n"))).map
        footer_index = some (2 ^ 64 - 1) ∧
    (header_footer_session.run [Event.data (cstr "HEADER\n") true]).is_undefined = true ∧
    (footer_session.run [Event.data (cstr "a\nb\n") true]).state.map State.live_items
      = some [cstr "a"] ∧
    (footer_session.run [Event.data (cstr "a\nb\n") true]).state.map State.footer
      = some (some (cstr "b")) := by
  decide

/-- C16. Under the extended-pattern algorithm with footer capture, with a
library that compiles the empty pattern to an expression matching `a` and `b`
and rejects the pattern `(`: the lines `a`, `b` are read, `(` is typed (the
recompute fails, the result `[0, 1]` is kept), and the stream ends.  The last
item becomes the footer and `num_items` is 1, the recompute fails again, and
the match result is still `[0, 1]` with `num_matches = 2`: `num_matches`
exceeds `num_items`, and the entry 1 is no item index. -/
theorem stale_matches_after_footer_capture (re : RegexLib) (f : List Nat → Bool)
    (hempty : re.regcomp true true [] = some f) (ha : f [97] = true) (hb : f [98] = true)
    (hparen : re.regcomp true true [40] = none) :
    ∃ s, (Outcome.ofState (startup_opts false true 10 (match_eregex re) [])).run
        [Event.data [97, 10, 98, 10] false, Event.keys [40], Event.data [] true]
        = Outcome.running s ∧
      s.match_err = true ∧ s.num_items = 1 ∧ s.num_matches = 2 ∧ s.result = [0, 1] ∧
      s.footer = some [98] ∧ ¬ (s.num_matches ≤ s.num_items) ∧
      ¬ (∀ m ∈ s.result, m < s.num_items) := by
  have e0 : startup_opts false true 10 (match_eregex re) []
      = some { foot := true, algorithm := match_eregex re, inputs := [input.of []] } := by
    simp [startup_opts, match_, selected_item, match_eregex, match_regex_with, cbuf, c_str, hempty,
      scan_items, find_item, input.of]
  have e1 : read_items { foot := true, algorithm := match_eregex re, inputs := [input.of []] }
      [97, 10, 98, 10] false
      = some { foot := true, algorithm := match_eregex re, inputs := [input.of []],
               items := [[97], [98]], num_items := 2, matches_ := [0, 1], num_matches := 2 } := by
    simp [read_items, read_lines, fgets, BUFSIZ, add_item, store, match_, selected_item,
      match_eregex, match_regex_with, cbuf, c_str, hempty, scan_items, find_item, input.of, ha, hb,
      size_of_int, SIZE_MOD]
  have e2 : read_input
      { foot := true, algorithm := match_eregex re, inputs := [input.of []],
        items := [[97], [98]], num_items := 2, matches_ := [0, 1], num_matches := 2 } [40]
      = Outcome.running
        { foot := true, algorithm := match_eregex re, inputs := [input.of [40], input.of []],
          items := [[97], [98]], num_items := 2, matches_ := [0, 1], num_matches := 2,
          match_err := true, input_point := 1 } := by
    simp [read_input, read_input_loop, dispatch, dispatch_top, insert_char, push_input, set_text,
      strncpy, strncpy_bytes, write_at, strcpy, match_, selected_item, match_eregex,
      match_regex_with, cbuf, c_str, hparen, find_item, input.of, size_of_int, SIZE_MOD,
      int_of_size, Outcome.ofState]
  have e3 : read_items
      { foot := true, algorithm := match_eregex re, inputs := [input.of [40], input.of []],
        items := [[97], [98]], num_items := 2, matches_ := [0, 1], num_matches := 2,
        match_err := true, input_point := 1 } [] true
      = some
        { foot := true, algorithm := match_eregex re, inputs := [input.of [40], input.of []],
          items := [[97], [98]], num_items := 1, matches_ := [0, 1], num_matches := 2,
          match_err := true, input_point := 1, footer := some [98] } := by
    simp [read_items, read_lines, fgets, BUFSIZ, end_of_stream, capture_footer, footer_index,
      size_sub, match_, selected_item, match_eregex, match_regex_with, cbuf, c_str, hparen,
      find_item, input.of, size_of_int, SIZE_MOD, int_of_size]
  refine ⟨{ foot := true, algorithm := match_eregex re,
            inputs := [input.of [40], input.of []], items := [[97], [98]], num_items := 1,
            matches_ := [0, 1], num_matches := 2, match_err := true, input_point := 1,
            footer := some [98] }, ?_, rfl, rfl, rfl, rfl, rfl,
    by show ¬ (2 ≤ 1); decide, by show ¬ (∀ m ∈ [0, 1], m < 1); decide⟩
  simp only [Outcome.run, List.foldl, Outcome.step, Outcome.ofState, e0, e1, e2, e3]

theorem stale_matches_after_footer_capture_witness :
    ∃ s, (Outcome.ofState (startup_opts false true 10 (match_eregex toy_regex) [])).run
        [Event.data [97, 10, 98, 10] false, Event.keys [40], Event.data [] true]
        = Outcome.running s ∧
      s.match_err = true ∧ s.num_items = 1 ∧ s.num_matches = 2 ∧ s.result = [0, 1] ∧
      s.footer = some [98] ∧ ¬ (s.num_matches ≤ s.num_items) ∧
      ¬ (∀ m ∈ s.result, m < s.num_items) :=
  stale_matches_after_footer_capture toy_regex (fun _ => true) rfl rfl rfl rfl

theorem add_item_inv (s : State) (h : Inv s) (it : List Nat) : Inv (add_item s it) :=
  ⟨h.1, h.2, h.3, store_length s.items s.num_items it h.4, h.5, h.6⟩

theorem inv_item_buf (s : State) (h : Inv s) (b : List Nat) : Inv { s with item_buf := b } :=
  ⟨h.1, h.2, h.3, h.4, h.5, h.6⟩

theorem inv_header (s : State) (h : Inv s) (b : List Nat) (l : Option (List Nat)) :
    Inv { s with item_buf := b, header := l } :=
  ⟨h.1, h.2, h.3, h.4, h.5, h.6⟩

theorem read_lines_inv (fuel : Nat) (s : State) (data : List Nat) (h : Inv s) (s' : State)
    (hr : read_lines fuel s data = some s') : Inv s' := by
  induction fuel generalizing s data with
  | zero => simp [read_lines] at hr
  | succ f ih =>
    simp only [read_lines] at hr
    split at hr
    · cases hr
    · cases hf : fgets (BUFSIZ - s.item_buf.length) data with
      | none =>
        simp only [hf] at hr
        cases hr
        exact h
      | some r =>
        obtain ⟨chunk, rest⟩ := r
        simp only [hf] at hr
        split at hr
        · split at hr
          · exact ih _ _ (inv_item_buf s h []) hr
          · split at hr
            · exact ih _ _ (inv_header s h [] _) hr
            · exact ih _ _ (add_item_inv _ (inv_item_buf s h []) _) hr
        · exact ih _ _ (inv_item_buf s h _) hr

theorem capture_footer_inv (s : State) (h : Inv s) (s' : State)
    (hr : capture_footer s = some s') : Inv s' := by
  unfold capture_footer at hr
  cases hit : s.items[footer_index s]? with
  | none => simp [hit] at hr
  | some it =>
    simp only [hit, Option.some.injEq] at hr
    subst hr
    have hlt : footer_index s < s.items.length := by
      by_contra hcon
      rw [List.getElem?_eq_none (by omega)] at hit
      cases hit
    exact ⟨h.1, h.2, h.3, Nat.le_of_lt hlt, h.5, h.6⟩

theorem end_of_stream_inv (s : State) (h : Inv s) (s' : State)
    (hr : end_of_stream s = some s') : Inv s' := by
  unfold end_of_stream at hr
  have h1 : Inv (if s.item_buf.length > 0 then add_item { s with item_buf := [] } s.item_buf
      else s) := by
    split
    · exact add_item_inv _ (inv_item_buf s h []) _
    · exact h
  simp only at hr
  generalize (if s.item_buf.length > 0 then add_item { s with item_buf := [] } s.item_buf
      else s) = s1 at hr h1
  split at hr
  · exact capture_footer_inv _ h1 _ hr
  · cases hr
    exact h1

theorem read_items_inv (s : State) (data : List Nat) (eof : Bool) (h : Inv s) (s' : State)
    (hr : read_items s data eof = some s') : Inv s' := by
  unfold read_items at hr
  cases h1 : read_lines (data.length + 1) s data with
  | none => simp [h1] at hr
  | some s1 =>
    have i1 := read_lines_inv _ s data h s1 h1
    simp only [h1, Option.some_bind] at hr
    cases h2 : (if eof = true then end_of_stream s1 else some s1) with
    | none => simp [h2] at hr
    | some s2 =>
      have i2 : Inv s2 := by
        split at h2
        · exact end_of_stream_inv s1 i1 s2 h2
        · cases h2
          exact i1
      simp only [h2, Option.some_bind] at hr
      obtain ⟨s3, e3, -, -, -, -, i3⟩ := match_inv s2 i2
      rw [e3] at hr
      cases hr
      exact i3

theorem step_inv (s : State) (e : Event) (h : Inv s) (s' : State)
    (hr : (Outcome.running s).step e = Outcome.running s') : Inv s' := by
  cases e with
  | keys stream => exact read_input_loop_inv stream s false h s' hr
  | data bytes eof =>
    simp only [Outcome.step] at hr
    cases hri : read_items s bytes eof with
    | none => simp [hri, Outcome.ofState] at hr
    | some s1 =>
      simp only [hri, Outcome.ofState, Outcome.running.injEq] at hr
      subst hr
      exact read_items_inv s bytes eof h s1 hri

theorem step_not_running (o : Outcome) (e : Event) (s' : State)
    (hr : o.step e = Outcome.running s') : ∃ s, o = Outcome.running s := by
  cases o with
  | running s => exact ⟨s, rfl⟩
  | exited out code => simp [Outcome.step] at hr
  | undefined => simp [Outcome.step] at hr

theorem run_inv (es : List Event) (s : State) (h : Inv s) (s' : State)
    (hr : (Outcome.running s).run es = Outcome.running s') : Inv s' := by
  induction es using List.reverseRecOn generalizing s' with
  | nil =>
    simp only [Outcome.run, List.foldl_nil, Outcome.running.injEq] at hr
    subst hr
    exact h
  | append_singleton es e ih =>
    simp only [Outcome.run, List.foldl_append, List.foldl_cons, List.foldl_nil] at hr ih
    obtain ⟨s1, h1⟩ := step_not_running _ e s' hr
    rw [h1] at hr
    exact step_inv s1 e (ih s1 h1) s' hr

theorem startup_opts_inv (head foot : Bool) (lines : Nat) (a : Algorithm) (q : List Nat)
    (ha : KnownAlgorithm a) (hq : 0 ∉ q) :
    ∃ s0, startup_opts head foot lines a q = some s0 ∧ Inv s0 ∧
      s0.query = (some q, q.length) := by
  have hinv : Inv
      { head := head, foot := foot, lines := lines, algorithm := a,
        inputs := [{ text := cbuf q, length := q.length }], input_point := q.length } := by
    refine ⟨by simp, ?_, ?_, by simp, by simp, ha⟩
    · intro inp hinp
      simp only [List.mem_singleton] at hinp
      subst hinp
      exact ⟨q, hq, rfl, rfl⟩
    · intro top htop
      simp only [List.head?_cons, Option.mem_def, Option.some.injEq] at htop
      subst htop
      exact le_refl _
  obtain ⟨s0, e, f1, f2, -, -, i0⟩ := match_inv _ hinv
  refine ⟨s0, e, i0, ?_⟩
  simp [State.query, State.text, f1, f2, c_str_cbuf q hq]

theorem run_edits_defined (es : List Event) (s : State) (h : Inv s)
    (hes : ∀ e ∈ es, ∃ ks, e = Event.keys ks ∧ ∀ c ∈ ks, edit_or_move c) :
    ∃ s', (Outcome.running s).run es = Outcome.running s' := by
  induction es generalizing s with
  | nil => exact ⟨s, rfl⟩
  | cons e es ih =>
    obtain ⟨ks, rfl, hks⟩ := hes e (by simp)
    obtain ⟨s1, -, e1, i1, -⟩ := read_input_loop_edits s ks h hks
    obtain ⟨s', e2⟩ := ih s1 i1 (fun x hx => hes x (by simp [hx]))
    refine ⟨s', ?_⟩
    simp only [Outcome.run, List.foldl_cons, Outcome.step, read_input, e1]
    exact e2

/-- C17. Query cursor invariant.  Startup with any options, one of the three
algorithms and an initial query `q` yields a state with the text `q` and the
edit cursor at its end.  In every state the session reaches from there by
keystrokes and data input, the undo chain is not empty, its newest entry holds
a terminated text `t` of the recorded length, and `input_point ≤ |t|`.  (Runs
of edits and cursor moves always reach such a state.) -/
theorem query_cursor_invariant (head foot : Bool) (lines : Nat) (a : Algorithm) (q : List Nat)
    (es : List Event) (ha : KnownAlgorithm a) (hq : 0 ∉ q) :
    ∃ s0, startup_opts head foot lines a q = some s0 ∧ s0.query = (some q, q.length) ∧
      (∀ s, (Outcome.running s0).run es = Outcome.running s →
        s.inputs ≠ [] ∧ ∃ t, s.text = some t ∧ s.input_point ≤ t.length ∧
          ∀ top ∈ s.inputs.head?, top.length = t.length) ∧
      ((∀ e ∈ es, ∃ ks, e = Event.keys ks ∧ ∀ c ∈ ks, edit_or_move c) →
        ∃ s, (Outcome.running s0).run es = Outcome.running s) := by
  obtain ⟨s0, e0, i0, q0⟩ := startup_opts_inv head foot lines a q ha hq
  refine ⟨s0, e0, q0, ?_, run_edits_defined es s0 i0⟩
  intro s hs
  have hi := run_inv es s0 i0 s hs
  obtain ⟨t, ht, hlen⟩ := inv_text s hi
  refine ⟨hi.1, t, ht, ?_, hlen⟩
  cases hin : s.inputs with
  | nil => exact absurd hin hi.1
  | cons top rest =>
    have h1 := hi.3 top (by simp [hin])
    have h2 := hlen top (by simp [hin])
    omega

theorem query_cursor_invariant_witness :
    ∃ s0, startup_opts false false 10 match_words (cstr "ab") = some s0 ∧
      s0.query = (some (cstr "ab"), (cstr "ab").length) ∧
      (∀ s, (Outcome.running s0).run
          [Event.keys [2, 120], Event.data (cstr "axb\nc\n") true, Event.keys [31, 6, 6, 12, 1]]
          = Outcome.running s →
        s.inputs ≠ [] ∧ ∃ t, s.text = some t ∧ s.input_point ≤ t.length ∧
          ∀ top ∈ s.inputs.head?, top.length = t.length) ∧
      ((∀ e ∈ [Event.keys [2, 120], Event.data (cstr "axb\nc\n") true,
            Event.keys [31, 6, 6, 12, 1]],
          ∃ ks, e = Event.keys ks ∧ ∀ c ∈ ks, edit_or_move c) →
        ∃ s, (Outcome.running s0).run
          [Event.keys [2, 120], Event.data (cstr "axb\nc\n") true, Event.keys [31, 6, 6, 12, 1]]
          = Outcome.running s) :=
  query_cursor_invariant false false 10 match_words (cstr "ab")
    [Event.keys [2, 120], Event.data (cstr "axb\nc\n") true, Event.keys [31, 6, 6, 12, 1]]
    (Or.inl rfl) (by decide)

theorem splitOnP_unfold (p : Nat → Bool) (s : List Nat) :
    s.splitOnP p = s.takeWhile (fun x => !p x) ::
      (match s.dropWhile (fun x => !p x) with
       | [] => []
       | _ :: r => r.splitOnP p) := by
  induction s with
  | nil => simp [List.splitOnP_nil]
  | cons x xs ih =>
    rw [List.splitOnP_cons]
    by_cases hx : p x = true
    · simp [hx, List.takeWhile_cons, List.dropWhile_cons]
    · have hx' : p x = false := by simpa using hx
      rw [ih]
      simp [hx', List.takeWhile_cons, List.dropWhile_cons, List.modifyHead]

theorem splitOnP_no_sep (p : Nat → Bool) (n : Nat) (s : List Nat) (hn : s.length ≤ n) :
    ∀ w ∈ s.splitOnP p, ∀ x ∈ w, p x = false := by
  induction n generalizing s with
  | zero =>
    have : s = [] := List.length_eq_zero.1 (by omega)
    subst this
    simp [List.splitOnP_nil]
  | succ n ih =>
    intro w hw x hx
    rw [splitOnP_unfold] at hw
    rcases List.mem_cons.1 hw with rfl | hw
    · have := List.mem_takeWhile_imp hx
      simpa using this
    · cases hd : s.dropWhile (fun x => !p x) with
      | nil => simp [hd] at hw
      | cons d r =>
        simp only [hd] at hw
        have hl : r.length < s.length := by
          have := (List.dropWhile_sublist (fun x => !p x) (l := s)).length_le
          rw [hd] at this
          simp only [List.length_cons] at this
          omega
        exact ih r (by omega) w hw x hx

theorem split_on_nil (p : Nat → Bool) : split_on p [] = [] := by
  simp [split_on, List.splitOnP_nil]

theorem split_on_sep (p : Nat → Bool) (c : Nat) (s : List Nat) (hc : p c = true) :
    split_on p (c :: s) = split_on p s := by
  simp [split_on, List.splitOnP_cons, hc]

theorem split_on_word (p : Nat → Bool) (c : Nat) (s : List Nat) (hc : p c = false) :
    split_on p (c :: s)
      = (c :: s.takeWhile (fun x => !p x))
          :: split_on p ((s.dropWhile (fun x => !p x)).drop 1) := by
  unfold split_on
  rw [splitOnP_unfold p (c :: s)]
  simp only [List.takeWhile_cons, List.dropWhile_cons, hc, Bool.not_false, if_true]
  cases hd : s.dropWhile (fun x => !p x) with
  | nil => simp [List.splitOnP_nil]
  | cons d r => simp

theorem split_words_eq_space_tokens (n : Nat) (s : List Nat) (f : Nat) (hn : s.length ≤ n)
    (hf : s.length < f) : split_words f s = space_tokens s := by
  unfold space_tokens
  induction n generalizing s f with
  | zero =>
    have : s = [] := List.length_eq_zero.1 (by omega)
    subst this
    obtain ⟨a, rfl⟩ : ∃ a, f = a + 1 := ⟨f - 1, by omega⟩
    simp [split_words, strtok, split_on_nil]
  | succ n ih =>
    obtain ⟨a, rfl⟩ : ∃ a, f = a + 1 := ⟨f - 1, by omega⟩
    cases s with
    | nil => simp [split_words, strtok, split_on_nil]
    | cons c s =>
      simp only [List.length_cons] at hn hf
      by_cases hc : c = 32
      · subst hc
        rw [split_words_space, split_on_sep _ _ _ (by simp)]
        exact ih s _ (by omega) (by omega)
      · rw [split_words_word _ _ _ hc, split_on_word _ _ _ (by simpa using hc)]
        have hl : ((s.dropWhile (fun x => x != 32)).drop 1).length ≤ s.length := by
          have := (List.dropWhile_sublist (fun x => x != 32) (l := s)).length_le
          simp only [List.length_drop]; omega
        have e := ih ((s.dropWhile (fun x => x != 32)).drop 1) a (by omega) (by omega)
        rw [e]
        rfl

/-- C18 (counterexample). A tab does not separate tokens: for the text `a`,
tab, `b` the loop of `match_words` stores the single word `a<tab>b`, while a
split on whitespace gives the two tokens `a` and `b`. -/
theorem tab_does_not_split :
    query_words [97, 9, 98] = [[97, 9, 98]] ∧
    whitespace_tokens [97, 9, 98] = [[97], [98]] ∧
    query_words [97, 9, 98] ≠ whitespace_tokens [97, 9, 98] ∧
    (startup match_words [97, 9, 98]).map State.text = some (some [97, 9, 98]) := by
  decide

/-- C18 (amended). For every query text, the words `match_words` stores are
the maximal runs of bytes other than the space character, in order, none of
them empty; and for a NUL-free text these are the tokens used for matching:
with no token every item matches, and otherwise the items are those the scan
over these tokens accepts. -/
theorem tokens_are_space_separated_runs (fold : Bool) (text : List Nat)
    (items : List (List Nat)) (n : Nat) (m0 : List Nat) (k0 : Nat) (h0 : 0 ∉ text) :
    query_words text = space_tokens text ∧
    (∀ w ∈ space_tokens text, w ≠ [] ∧ 32 ∉ w) ∧
    match_words fold (input.of text) items n m0 k0
      = (if (space_tokens text).length = 0 then some (0, fill_all n 0 m0, n)
         else (scan_items (fun it => scan_words fold it (space_tokens text)) items n 0 m0 0).map
           (fun r => (0, r.1, r.2))) := by
  have hq : query_words text = space_tokens text :=
    split_words_eq_space_tokens text.length text _ (le_refl _) (by omega)
  refine ⟨hq, ?_, ?_⟩
  · intro w hw
    simp only [space_tokens, split_on, List.mem_filter] at hw
    obtain ⟨hw1, hw2⟩ := hw
    refine ⟨by intro h; simp [h] at hw2, ?_⟩
    intro h32
    have := splitOnP_no_sep (fun c => c == 32) text.length text (le_refl _) w hw1 32 h32
    simp at this
  · simp only [match_words, input.of, c_str_cbuf text h0, hq]
    split
    · rfl
    · cases scan_items (fun it => scan_words fold it (space_tokens text)) items n 0 m0 0 with
      | none => rfl
      | some r => rfl

theorem tokens_are_space_separated_runs_witness :
    query_words (cstr " ab  c\td ") = space_tokens (cstr " ab  c\td ") ∧
    (∀ w ∈ space_tokens (cstr " ab  c\td "), w ≠ [] ∧ 32 ∉ w) ∧
    match_words true (input.of (cstr " ab  c\td ")) [cstr "abc\td"] 1 [] 0
      = (if (space_tokens (cstr " ab  c\td ")).length = 0 then some (0, fill_all 1 0 [], 1)
         else (scan_items (fun it => scan_words true it (space_tokens (cstr " ab  c\td ")))
           [cstr "abc\td"] 1 0 [] 0).map (fun r => (0, r.1, r.2))) :=
  tokens_are_space_separated_runs true (cstr " ab  c\td ") [cstr "abc\td"] 1 [] 0 (by decide)

theorem draw_rows_blank (s : State) (fuel i : Nat)
    (h : ∀ j, i ≤ j → j < i + fuel → draw_row s j = some Row.blank) :
    draw_rows s fuel i = some (List.replicate fuel Row.blank) := by
  induction fuel generalizing i with
  | zero => rfl
  | succ f ih =>
    simp only [draw_rows, h i (le_refl _) (by omega)]
    rw [ih (i + 1) (fun j h1 h2 => h j (by omega) (by omega))]
    rfl

theorem draw_rows_spec (s : State) (fuel i : Nat) (rows : List Row)
    (h : draw_rows s fuel i = some rows) :
    rows.length = fuel ∧ ∀ j, j < fuel → (rows[j]?) = draw_row s (i + j) := by
  induction fuel generalizing i rows with
  | zero =>
    simp only [draw_rows, Option.some.injEq] at h
    subst h
    exact ⟨rfl, by intro j hj; omega⟩
  | succ f ih =>
    simp only [draw_rows] at h
    cases hr : draw_row s i with
    | none => simp [hr] at h
    | some r =>
      simp only [hr] at h
      cases ht : draw_rows s f (i + 1) with
      | none => simp [ht] at h
      | some rs =>
        simp only [ht, Option.map_some', Option.some.injEq] at h
        subst h
        obtain ⟨l1, l2⟩ := ih (i + 1) rs ht
        refine ⟨by simp [l1], ?_⟩
        intro j hj
        cases j with
        | zero => simp [hr]
        | succ j =>
          have := l2 j (by omega)
          simp only [List.getElem?_cons_succ, this]
          congr 1
          omega

/-- The row window when the height leaves room: with
`lines ≥ 1 + (header ? 1 : 0) + (footer ? 1 : 0)` the loop makes
`lines - 1 - (header ? 1 : 0) - (footer ? 1 : 0)` iterations, and iteration `j`
writes the match at position `match_index + j`, cut to `columns` bytes and in
reverse video for `j = 0`, when that position is below `num_matches`, and
nothing otherwise. -/
theorem draw_rows_window (s : State) (rows : List Row)
    (hroom : 1 + (if s.header.isSome then 1 else 0) + (if s.footer.isSome then 1 else 0)
      ≤ s.lines)
    (hnowrap : s.match_index + row_bound s ≤ SIZE_MOD)
    (h : draw_rows s (row_bound s) 0 = some rows) :
    row_bound s = s.lines - 1 - (if s.header.isSome then 1 else 0)
      - (if s.footer.isSome then 1 else 0) ∧
    rows.length = row_bound s ∧
    ∀ j, j < row_bound s →
      (s.match_index + j < s.num_matches →
        ∃ m it, s.matches_[s.match_index + j]? = some m ∧ s.items[m]? = some it ∧
          rows[j]? = some (if j = 0 then Row.highlighted (it.take s.columns)
                           else Row.plain (it.take s.columns))) ∧
      (¬ s.match_index + j < s.num_matches → rows[j]? = some Row.blank) := by
  have hb : row_bound s = s.lines - 1 - (if s.header.isSome then 1 else 0)
      - (if s.footer.isSome then 1 else 0) := by
    unfold row_bound
    have h1 : size_sub s.lines 1 = s.lines - 1 := size_sub_of_le _ _ (by omega)
    rw [h1]
    have h2 : size_sub (s.lines - 1) (if s.header.isSome then 1 else 0)
        = s.lines - 1 - (if s.header.isSome then 1 else 0) :=
      size_sub_of_le _ _ (by omega)
    rw [h2]
    exact size_sub_of_le _ _ (by omega)
  obtain ⟨l1, l2⟩ := draw_rows_spec s _ 0 rows h
  refine ⟨hb, l1, ?_⟩
  intro j hj
  have hrow := l2 j hj
  rw [Nat.zero_add] at hrow
  have hmod : (s.match_index + j) % SIZE_MOD = s.match_index + j :=
    Nat.mod_eq_of_lt (by omega)
  have hdef : ∃ r, draw_row s j = some r := by
    rw [← hrow]
    exact ⟨rows.get ⟨j, by omega⟩, List.getElem?_eq_getElem (by omega)⟩
  obtain ⟨r, hr⟩ := hdef
  constructor
  · intro hlt
    unfold draw_row at hr
    rw [hmod, if_pos hlt] at hr
    cases hm : s.matches_[s.match_index + j]? with
    | none => simp [hm] at hr
    | some m =>
      simp only [hm] at hr
      split at hr
      · cases hit : s.items[m]? with
        | none => simp [hit] at hr
        | some it =>
          simp only [hit] at hr
          refine ⟨m, it, rfl, hit, ?_⟩
          rw [hrow]
          unfold draw_row
          rw [hmod, if_pos hlt]
          simp only [hm]
          rw [if_pos (by assumption)]
          simp only [hit]
      · cases hr
  · intro hge
    rw [hrow]
    unfold draw_row
    rw [hmod, if_neg hge]

theorem draw_rows_two_then_blank (s : State) (k : Nat) (r0 r1 : Row)
    (h0 : draw_row s 0 = some r0) (h1 : draw_row s 1 = some r1)
    (hrest : ∀ j, 2 ≤ j → j < 2 + k → draw_row s j = some Row.blank) :
    draw_rows s (k + 2) 0 = some (r0 :: r1 :: List.replicate k Row.blank) := by
  simp only [draw_rows, h0, h1]
  rw [draw_rows_blank s k 2 hrest]
  rfl

theorem one_line_header_state :
    one_line_header_session.run [Event.data (cstr "H\na\nb\n") true]
      = Outcome.running
        { head := true, lines := 1, header := some [72], items := [[97], [98]], num_items := 2,
          matches_ := [0, 1], num_matches := 2, inputs := [input.of []] } := by
  rfl


/-- C19. The row loop of `draw` does not stop at a small height: in the session
started with `-l 1 -H` that has read the stream `H`, `a`, `b`, the height 1 is
below `1 + 1 + 0`, the loop bound `lines - 1 - 1 - 0` wraps to `2^64 - 1` in
`size_t`, and the loop makes that many iterations, the first two of which
write the match rows `a` (highlighted) and `b`. -/
theorem draw_row_loop_wraps_on_small_height :
    ∃ s, one_line_header_session.run [Event.data (cstr "H\na\nb\n") true] = Outcome.running s ∧
      s.lines = 1 ∧ s.header = some [72] ∧ s.footer = none ∧
      s.lines ≤ (if s.header.isSome then 1 else 0) + (if s.footer.isSome then 1 else 0) + 1 ∧
      row_bound s = 2 ^ 64 - 1 ∧
      draw_rows s (row_bound s) 0 =
        some (Row.highlighted [97] :: Row.plain [98]
          :: List.replicate 18446744073709551613 Row.blank) := by
  refine ⟨_, one_line_header_state, rfl, rfl, rfl, by decide, by decide, ?_⟩
  have hb : row_bound
      { head := true, lines := 1, header := some [72], items := [[97], [98]], num_items := 2,
        matches_ := [0, 1], num_matches := 2, inputs := [input.of []] }
      = 18446744073709551613 + 2 := by decide
  rw [hb]
  refine draw_rows_two_then_blank _ _ _ _ (by decide) (by decide) ?_
  intro j h2 hj
  have hm : (0 + j) % SIZE_MOD = j := by
    rw [Nat.zero_add]
    exact Nat.mod_eq_of_lt (by unfold SIZE_MOD; omega)
  unfold draw_row
  show (if (0 + j) % SIZE_MOD < 2 then _ else _) = _
  rw [hm, if_neg (by omega)]

end Tmenu
